import Mathlib

/-!
Verification development for the Schedule-1-Tools repository.

Shallow embedding of the core components:
- mixing (substances, effect sets as u64 bit masks, rule tables, the transition
  function MixtureRules::apply) from src/src/mixing/mod.rs;
- the combinatorial encoder from src/src/combinatorial/mod.rs;
- the effect graph from src/src/effect_graph/mod.rs;
- the multiobjective shortest path engine from src/src/mosp/mod.rs;
- the query/trace layer from src/src/bin.rs;
- the depth-first search from src/src/search/mod.rs.

Machine integers (u8/u16/u32/u64) are modelled as Nat: in every run analysed
here all quantities stay far below the respective bounds, so wrap-around does
not occur and is not modelled.  Fallible or panicking code paths are modelled
with Option/Except.
-/

/-! ## Substances and effect sets (src/src/mixing/mod.rs) -/

/-- The 16 substances, in declaration order of the Rust enum. -/
inductive Substance where
  | Cuke
  | FluMedicine
  | Gasoline
  | Donut
  | EnergyDrink
  | MouthWash
  | MotorOil
  | Banana
  | Chili
  | Iodine
  | Paracetamol
  | Viagra
  | HorseSemen
  | MegaBean
  | Addy
  | Battery
deriving DecidableEq, Repr

/-- Discriminant of the repr(u8) enum (the From<Substance> for u8 impl). -/
def substanceIdx : Substance → Nat
  | Substance.Cuke => 0
  | Substance.FluMedicine => 1
  | Substance.Gasoline => 2
  | Substance.Donut => 3
  | Substance.EnergyDrink => 4
  | Substance.MouthWash => 5
  | Substance.MotorOil => 6
  | Substance.Banana => 7
  | Substance.Chili => 8
  | Substance.Iodine => 9
  | Substance.Paracetamol => 10
  | Substance.Viagra => 11
  | Substance.HorseSemen => 12
  | Substance.MegaBean => 13
  | Substance.Addy => 14
  | Substance.Battery => 15

/-- The SUBSTANCES constant slice, in the same order. -/
def SUBSTANCES : List Substance :=
  [Substance.Cuke, Substance.FluMedicine, Substance.Gasoline, Substance.Donut,
   Substance.EnergyDrink, Substance.MouthWash, Substance.MotorOil, Substance.Banana,
   Substance.Chili, Substance.Iodine, Substance.Paracetamol, Substance.Viagra,
   Substance.HorseSemen, Substance.MegaBean, Substance.Addy, Substance.Battery]

/-- MAX_EFFECTS constant. -/
def MAX_EFFECTS : Nat := 8

/-- NUM_EFFECTS constant. -/
def NUM_EFFECTS : Nat := 34

/-- An effect set: the bitflags Effects struct is a u64 bit mask, modelled as Nat. -/
abbrev Effects := Nat

/-- The bitflags contains method: all bits of other are present in self
(self.bits and other.bits == other.bits). -/
def containsE (self other : Effects) : Bool := self &&& other = other

/-- The bitflags remove method: clear the bits of other (self.bits and not
other.bits).  Nat has no complement, and bitwise AND-NOT is the same function
as self AND (self XOR other). -/
def removeE (self other : Effects) : Effects := self &&& (self ^^^ other)

/-- The bitflags insert method: set the bits of other. -/
def insertE (self other : Effects) : Effects := self ||| other

/-- Bit population count, recursion worker: the first argument is structural
fuel (the recursion halves the number, so fuel n suffices), making the
function reducible by the kernel. -/
def count_ones_go : Nat → Nat → Nat
  | 0, _ => 0
  | fuel + 1, n => if n = 0 then 0 else n % 2 + count_ones_go fuel (n / 2)

/-- Bit population count, mirroring u64::count_ones (used as effects.bits().count_ones()). -/
def count_ones (n : Nat) : Nat := count_ones_go n n

theorem count_ones_go_zero : ∀ fuel, count_ones_go fuel 0 = 0
  | 0 => rfl
  | _ + 1 => rfl

theorem count_ones_go_stable : ∀ n f1 f2, n ≤ f1 → n ≤ f2 →
    count_ones_go f1 n = count_ones_go f2 n := by
  intro n
  induction n using Nat.strong_induction_on with
  | _ n ih =>
    intro f1 f2 h1 h2
    match n, f1, f2 with
    | 0, f1, f2 => rw [count_ones_go_zero, count_ones_go_zero]
    | n + 1, f1 + 1, f2 + 1 =>
      simp only [count_ones_go, Nat.succ_ne_zero, if_false]
      have hd : (n + 1) / 2 < n + 1 := Nat.div_lt_self (Nat.succ_pos n) one_lt_two
      exact congrArg _ (ih _ hd f1 f2 (by omega) (by omega))

/-- The defining recursion of count_ones: low bit plus the count of the rest. -/
theorem count_ones_eq (n : Nat) :
    count_ones n = if n = 0 then 0 else n % 2 + count_ones (n / 2) := by
  match n with
  | 0 => rfl
  | n + 1 =>
    show count_ones_go (n + 1) (n + 1) = _
    simp only [count_ones_go, Nat.succ_ne_zero, if_false, count_ones]
    have hd : (n + 1) / 2 < n + 1 := Nat.div_lt_self (Nat.succ_pos n) one_lt_two
    exact congrArg _ (count_ones_go_stable _ _ _ (by omega) (le_refl _))

/-- A replacement rule: guarded rewrite of the effect set. -/
structure Rule where
  if_present : Effects
  if_not_present : Effects
  remove : Effects
  add : Effects
deriving DecidableEq, Repr

/-- The rule table.  The f64 per-effect price weights are modelled over the
rationals (exact arithmetic); no claim analysed here depends on
floating-point rounding of the weights themselves. -/
structure MixtureRules where
  replacement_rules : Substance → List Rule
  inherent_effects : Substance → Effects
  price_mults : Nat → ℚ

/-- The body of the rule loop in MixtureRules::apply: the rule fires iff
effects.contains(if_present) and not effects.contains(if_not_present); then
the rule's remove set is removed and its add set inserted. -/
def ruleStep (e : Effects) (rule : Rule) : Effects :=
  if containsE e rule.if_present && !containsE e rule.if_not_present then
    insertE (removeE e rule.remove) rule.add
  else e

/-- MixtureRules::apply: run every rule of the substance in order, then if
fewer than MAX_EFFECTS bits are set, insert the substance's inherent effect set. -/
def MixtureRules.apply (self : MixtureRules) (substance : Substance) (effects : Effects) : Effects :=
  let effects := (self.replacement_rules substance).foldl ruleStep effects
  let n_effects := count_ones effects
  if n_effects < MAX_EFFECTS then insertE effects (self.inherent_effects substance) else effects

/-- MixtureRules::price_multiplier: base 1 plus the sum of the weights of the
present effects, accumulated by the same loop over the NUM_EFFECTS bit
positions as the source. -/
def MixtureRules.price_multiplier (self : MixtureRules) (effects : Effects) : ℚ :=
  1 + (List.range NUM_EFFECTS).foldl
    (fun multiplier i => if effects.testBit i then multiplier + self.price_mults i else multiplier)
    0

/-- The Drugs enum from src/src/mixing/mod.rs. -/
inductive Drugs where
  | OGKush
  | SourDiesel
  | GreenCrack
  | GranddaddyPurple
  | Meth
  | Cocaine
deriving DecidableEq, Repr

/-- inherent_effects: the starting effect set of each base product
(Calming = bit 4, Refreshing = bit 21, Energizing = bit 9, Sedating = bit 23). -/
def inherent_effects : Drugs → Effects
  | Drugs.OGKush => 2 ^ 4
  | Drugs.SourDiesel => 2 ^ 21
  | Drugs.GreenCrack => 2 ^ 9
  | Drugs.GranddaddyPurple => 2 ^ 23
  | _ => 0

/-- base_price of each base product (f64 in the source, exact here). -/
def base_price : Drugs → ℚ
  | Drugs.OGKush | Drugs.SourDiesel | Drugs.GreenCrack | Drugs.GranddaddyPurple => 35
  | Drugs.Meth => 70
  | Drugs.Cocaine => 150

/-- substance_cost from src/src/mixing/mod.rs (i64 in the source). -/
def substance_cost : Substance → Int
  | Substance.Cuke => 2
  | Substance.Banana => 2
  | Substance.Paracetamol => 3
  | Substance.Donut => 3
  | Substance.Viagra => 4
  | Substance.MouthWash => 4
  | Substance.FluMedicine => 5
  | Substance.Gasoline => 5
  | Substance.EnergyDrink => 6
  | Substance.MotorOil => 6
  | Substance.MegaBean => 7
  | Substance.Chili => 7
  | Substance.Battery => 8
  | Substance.Iodine => 8
  | Substance.Addy => 9
  | Substance.HorseSemen => 9

/-! ## Combinatorial encoder (src/src/combinatorial/mod.rs)

The source stores Pascal's triangle in a flat column-major u32 array
(binom with triangle_index); cell (row, column) is written exactly once, with
value 1 when column = 0 or column = row and otherwise the sum of the two
guarded reads binomial_coeff(row-1, column-1) and binomial_coeff(row-1, column)
(a read returns 0 when row < column, matching the never-written cells which
stay 0).  We model the table by its lookup function pascal, defined by that
same recurrence. -/

/-- Value of table cell (row, column): the recurrence used by
CombinatorialEncoder::new, including the guarded binomial_coeff reads. -/
def pascal : Nat → Nat → Nat
  | _, 0 => 1
  | 0, _ + 1 => 0
  | r + 1, c + 1 =>
    if c + 1 = r + 1 then 1
    else (if r < c then 0 else pascal r c) + (if r < c + 1 then 0 else pascal r (c + 1))

/-- Entry k of the size_offsets vector: the running total of pascal N j for j
below k, built by the same running-total loop as the source. -/
def sizeOffset (N k : Nat) : Nat :=
  (List.range k).foldl (fun running_total j => running_total + pascal N j) 0

/-- CombinatorialEncoder::maximum_index: the final size_offsets entry. -/
def maximum_index (N MAX_K : Nat) : Nat := sizeOffset N (MAX_K + 1)

/-- Index of the lowest set bit, recursion worker with structural fuel (fuel n
suffices since the recursion halves the number). -/
def trailingZeros_go : Nat → Nat → Nat
  | 0, _ => 0
  | fuel + 1, n => if n % 2 = 1 ∨ n = 0 then 0 else trailingZeros_go fuel (n / 2) + 1

/-- Index of the lowest set bit, mirroring u64::trailing_zeros (on nonzero input). -/
def trailingZeros (n : Nat) : Nat := trailingZeros_go n n

theorem trailingZeros_go_stable : ∀ n f1 f2, n ≤ f1 → n ≤ f2 →
    trailingZeros_go f1 n = trailingZeros_go f2 n := by
  intro n
  induction n using Nat.strong_induction_on with
  | _ n ih =>
    intro f1 f2 h1 h2
    match n, f1, f2 with
    | 0, f1, f2 =>
      cases f1 <;> cases f2 <;> simp [trailingZeros_go]
    | n + 1, f1 + 1, f2 + 1 =>
      simp only [trailingZeros_go]
      by_cases ho : (n + 1) % 2 = 1 ∨ n + 1 = 0
      · have hm : (n + 1) % 2 = 1 := by omega
        simp [hm]
      · simp only [ho, if_false]
        have hd : (n + 1) / 2 < n + 1 := Nat.div_lt_self (Nat.succ_pos n) one_lt_two
        exact congrArg (· + 1) (ih _ hd f1 f2 (by omega) (by omega))

/-- The defining recursion of trailingZeros. -/
theorem trailingZeros_eq (n : Nat) :
    trailingZeros n = if n % 2 = 1 ∨ n = 0 then 0 else trailingZeros (n / 2) + 1 := by
  match n with
  | 0 => rfl
  | n + 1 =>
    show trailingZeros_go (n + 1) (n + 1) = _
    simp only [trailingZeros_go, trailingZeros]
    by_cases ho : (n + 1) % 2 = 1 ∨ n + 1 = 0
    · have hm : (n + 1) % 2 = 1 := by omega
      simp [hm]
    · simp only [ho, if_false]
      have hd : (n + 1) / 2 < n + 1 := Nat.div_lt_self (Nat.succ_pos n) one_lt_two
      exact congrArg (· + 1) (trailingZeros_go_stable _ _ _ (by omega) (le_refl _))

/-- The encoding loop of CombinatorialEncoder::encode, recursion worker with
structural fuel (clearing the lowest set bit strictly decreases the mask, so
fuel remaining suffices). -/
def encodeLoop_go : Nat → Nat → Nat → Nat
  | 0, _, _ => 0
  | fuel + 1, remaining, counter =>
    if remaining = 0 then 0
    else
      let elem := trailingZeros remaining
      (if elem < counter then 0 else pascal elem counter) +
        encodeLoop_go fuel (remaining - 2 ^ elem) (counter + 1)

/-- The encoding loop of CombinatorialEncoder::encode: repeatedly peel the
lowest set bit elem (clearing it subtracts 2 ^ elem) and add the guarded table
entry at (elem, counter), with counter starting at 1. -/
def encodeLoop (remaining counter : Nat) : Nat := encodeLoop_go remaining remaining counter

theorem encodeLoop_go_stable : ∀ remaining f1 f2 counter, remaining ≤ f1 → remaining ≤ f2 →
    encodeLoop_go f1 remaining counter = encodeLoop_go f2 remaining counter := by
  intro remaining
  induction remaining using Nat.strong_induction_on with
  | _ remaining ih =>
    intro f1 f2 counter h1 h2
    match remaining, f1, f2 with
    | 0, f1, f2 => cases f1 <;> cases f2 <;> simp [encodeLoop_go]
    | r + 1, f1 + 1, f2 + 1 =>
      simp only [encodeLoop_go, Nat.succ_ne_zero, if_false]
      have hd : r + 1 - 2 ^ trailingZeros (r + 1) < r + 1 :=
        Nat.sub_lt (Nat.succ_pos r) (Nat.pos_pow_of_pos _ (by norm_num))
      exact congrArg _ (ih _ hd f1 f2 _ (by omega) (by omega))

/-- The defining recursion of encodeLoop. -/
theorem encodeLoop_eq (remaining counter : Nat) :
    encodeLoop remaining counter =
      if remaining = 0 then 0
      else
        (if trailingZeros remaining < counter then 0
         else pascal (trailingZeros remaining) counter) +
          encodeLoop (remaining - 2 ^ trailingZeros remaining) (counter + 1) := by
  match remaining with
  | 0 => rfl
  | r + 1 =>
    show encodeLoop_go (r + 1) (r + 1) counter = _
    simp only [encodeLoop_go, Nat.succ_ne_zero, if_false, encodeLoop]
    have hd : r + 1 - 2 ^ trailingZeros (r + 1) < r + 1 :=
      Nat.sub_lt (Nat.succ_pos r) (Nat.pos_pow_of_pos _ (by norm_num))
    exact congrArg _ (encodeLoop_go_stable _ _ _ _ (by omega) (le_refl _))

/-- CombinatorialEncoder::encode (the assert that the popcount is at most MAX_K
is a hypothesis of the theorems below). -/
def encode (N : Nat) (bitset : Nat) : Nat :=
  sizeOffset N (count_ones bitset) + encodeLoop bitset 1

/-- The partition_point step of CombinatorialEncoder::decode: on the sorted
size_offsets vector of length MAX_K + 2, partition_point of (x <= index)
returns the number of entries satisfying the (monotone) predicate; then
saturating_sub 1. -/
def decode_k (N MAX_K index : Nat) : Nat :=
  (List.range (MAX_K + 2)).countP (fun k => sizeOffset N k ≤ index) - 1

/-- The inner scan of CombinatorialEncoder::decode: starting from elem and
walking down, find the first elem whose guarded table entry at (elem, k) is at
most local_idx. -/
def decodeFind (k idx : Nat) : Nat → Nat
  | 0 => 0
  | e + 1 =>
    if (if e + 1 < k then 0 else pascal (e + 1) k) ≤ idx then e + 1 else decodeFind k idx e

/-- The outer loop of CombinatorialEncoder::decode: for each k down to 1,
restart the scan from N, record bit elem, and subtract its table value. -/
def decodeLoop (N : Nat) : Nat → Nat → Nat
  | 0, _ => 0
  | k + 1, idx =>
    let elem := decodeFind (k + 1) idx N
    let value := if elem < k + 1 then 0 else pascal elem (k + 1)
    2 ^ elem ||| decodeLoop N k (idx - value)

/-- CombinatorialEncoder::decode. -/
def decode (N MAX_K index : Nat) : Nat :=
  let k := decode_k N MAX_K index
  decodeLoop N k (index - sizeOffset N k)

/-! ## Effect graph (src/src/effect_graph/mod.rs) -/

/-- The body of the inner loop in EffectGraph::new: if the successor new_idx
differs from idx and idx is not yet recorded, append idx to
predecessors[new_idx]. -/
def predInsert (succ : Nat → Nat → Nat) (idx : Nat) (P : Nat → List Nat) (s_idx : Nat) :
    Nat → List Nat :=
  let new_idx := succ idx s_idx
  if new_idx = idx then P
  else if idx ∈ P new_idx then P
  else fun x => if x = new_idx then P new_idx ++ [idx] else P x

/-- The predecessor lists built by the double loop in EffectGraph::new: for idx
in 0..M and each substance index, run predInsert. -/
def buildPreds (M : Nat) (succ : Nat → Nat → Nat) : Nat → List Nat :=
  (List.range M).foldl (fun P idx => (List.range 16).foldl (predInsert succ idx) P)
    (fun _ => [])

/-- The effect graph: dense successor function, ragged predecessor lists, and
the encoder it carries. -/
structure EffectGraph where
  num_nodes : Nat
  succFn : Nat → Nat → Nat
  predList : Nat → List Nat
  encodeFn : Nat → Nat

/-- EffectGraph::new for parameters N, MAX_K: successors[u][s] is
encode(apply(s, decode(u))); predecessors are built by buildPreds. -/
def EffectGraph.new (N MAX_K : Nat) (rules : MixtureRules) : EffectGraph :=
  let M := maximum_index N MAX_K
  let succ := fun u s_idx =>
    encode N (rules.apply (SUBSTANCES.getD s_idx Substance.Cuke) (decode N MAX_K u))
  { num_nodes := M
    succFn := succ
    predList := buildPreds M succ
    encodeFn := encode N }

/-- EffectGraph::successors as the 16-entry row. -/
def EffectGraph.successors (g : EffectGraph) (u : Nat) : List Nat :=
  (List.range 16).map (g.succFn u)

/-- EffectGraph::predecessors_with_substances: each predecessor v paired with
the substance at the first position of successors[v] equal to u.  The source
panics if no position matches; for graphs built by EffectGraph.new a match
always exists, and the default 0 is never used there. -/
def EffectGraph.predecessors_with_substances (g : EffectGraph) (u : Nat) :
    List (Nat × Substance) :=
  (g.predList u).map (fun v =>
    (v, SUBSTANCES.getD (((List.range 16).find? (fun s => g.succFn v s = u)).getD 0)
          Substance.Cuke))

/-! ## MOSP engine (src/src/mosp/mod.rs) -/

/-- The sentinel backlink EffectIndex::MAX (u32). -/
def NICHE : Nat := 4294967295

/-- A label: walk length, aggregate cost, substance of the last step, and the
node the last step was taken from (NICHE for the source label). -/
structure Label where
  length : Nat
  cost : Nat
  previous_substance : Substance
  backlink : Nat
deriving DecidableEq, Repr

/-- Label::backlink: None at the sentinel. -/
def Label.getBacklink (l : Label) : Option (Nat × Substance) :=
  if l.backlink = NICHE then none else some (l.backlink, l.previous_substance)

/-- The derived lexicographic Ord on Label: by length, then cost, then
previous_substance (enum order), then backlink. -/
def labelLt (a b : Label) : Bool :=
  if a.length = b.length then
    if a.cost = b.cost then
      if substanceIdx a.previous_substance = substanceIdx b.previous_substance then
        Nat.blt a.backlink b.backlink
      else Nat.blt (substanceIdx a.previous_substance) (substanceIdx b.previous_substance)
    else Nat.blt a.cost b.cost
  else Nat.blt a.length b.length

/-- The pending priority queue: at most one entry per node, keyed by node with
priority Reverse(label), modelled as an association list. -/
abbrev Queue := List (Nat × Label)

/-- PriorityQueue::push: insert, or unconditionally replace the label of an
existing entry for the node. -/
def queuePush (q : Queue) (node : Nat) (lbl : Label) : Queue :=
  if q.any (fun p => p.1 = node) then
    q.map (fun p => if p.1 = node then (node, lbl) else p)
  else (node, lbl) :: q

/-- PriorityQueue::push_increase with priority Reverse(label): keep the
lexicographically smaller label for the node. -/
def queuePushIncrease (q : Queue) (node : Nat) (lbl : Label) : Queue :=
  match q.find? (fun p => p.1 = node) with
  | none => (node, lbl) :: q
  | some (_, old) =>
    if labelLt lbl old then q.map (fun p => if p.1 = node then (node, lbl) else p) else q

/-- PriorityQueue::pop: remove and return the entry with the greatest priority
Reverse(label), i.e. the smallest label.  The crate leaves the order of entries
with equal priorities unspecified; this model refines that by preferring the
smaller node index (the runs evaluated below never hit such a tie). -/
def queuePop (q : Queue) : Option ((Nat × Label) × Queue) :=
  match q with
  | [] => none
  | p :: rest =>
    let best := rest.foldl (fun b x =>
      if labelLt x.2 b.2 then x
      else if x.2 = b.2 ∧ x.1 < b.1 then x else b) p
    some (best, q.erase best)

/-- The dominance filter label_nondominated_nonequal, with the source's early
returns: an existing label that dominates or equals the candidate rejects it
immediately; a candidate that strictly dominates an existing label is accepted
immediately (the defensive logging branch). -/
def label_nondominated_nonequal (label : Label) : List Label → Bool
  | [] => true
  | ex :: rest =>
    match compare ex.length label.length, compare ex.cost label.cost with
    | Ordering.lt, Ordering.lt => false
    | Ordering.lt, Ordering.eq => false
    | Ordering.eq, Ordering.lt => false
    | Ordering.eq, Ordering.eq => false
    | Ordering.gt, Ordering.eq => true
    | Ordering.gt, Ordering.gt => true
    | Ordering.eq, Ordering.gt => true
    | _, _ => label_nondominated_nonequal label rest

/-- next_candidate_label: for each predecessor (with its recovered substance),
extend that predecessor's permanent labels in order, take the first extension
that survives the dominance filter against the node's permanent labels (the
inner break), and keep the lexicographically smallest such extension overall.
Note the source sets the backlink of the extension to node itself. -/
def next_candidate_label (node : Nat) (predecessors : List (Nat × Substance))
    (substance_costs : List Nat) (permanent_labels : List (List Label)) : Option Label :=
  let existing_labels := permanent_labels.getD node []
  predecessors.foldl (fun new_candidate ps =>
    match (permanent_labels.getD ps.1 []).find? (fun old_label =>
        label_nondominated_nonequal
          { length := old_label.length + 1
            cost := old_label.cost + substance_costs.getD (substanceIdx ps.2) 0
            previous_substance := ps.2
            backlink := node } existing_labels) with
    | none => new_candidate
    | some old_label =>
      let new_label : Label :=
        { length := old_label.length + 1
          cost := old_label.cost + substance_costs.getD (substanceIdx ps.2) 0
          previous_substance := ps.2
          backlink := node }
      match new_candidate with
      | none => some new_label
      | some c => if labelLt new_label c then some new_label else some c) none

/-- propagate: push_increase the new label for the child unless dominated by
the child's permanent labels. -/
def propagate (new_label : Label) (child : Nat) (child_permanent_labels : List Label)
    (pending : Queue) : Queue :=
  if !label_nondominated_nonequal new_label child_permanent_labels then pending
  else queuePushIncrease pending child new_label

/-- The main loop of multiobjective_shortest_path, with explicit fuel (the Rust
loop runs until the queue drains; none means the fuel was exhausted first). -/
def mospLoop (graph : EffectGraph) (substance_costs : List Nat) :
    Nat → List (List Label) → Queue → Option (List (List Label))
  | 0, _, _ => none
  | fuel + 1, permanent_labels, pending =>
    match queuePop pending with
    | none => some permanent_labels
    | some ((node, label), pending) =>
      let permanent_labels := permanent_labels.set node (permanent_labels.getD node [] ++ [label])
      let pending :=
        match next_candidate_label node (graph.predecessors_with_substances node)
            substance_costs permanent_labels with
        | some candidate => queuePush pending node candidate
        | none => pending
      let pending := (List.range 16).foldl (fun q idx =>
        let child := graph.succFn node idx
        propagate
          { length := label.length + 1
            cost := label.cost + substance_costs.getD idx 0
            previous_substance := SUBSTANCES.getD idx Substance.Cuke
            backlink := node }
          child (permanent_labels.getD child []) q) pending
      mospLoop graph substance_costs fuel permanent_labels pending

/-- multiobjective_shortest_path: start from the encoded starting node with the
zero label (previous_substance Cuke, backlink NICHE). -/
def multiobjective_shortest_path (fuel : Nat) (graph : EffectGraph)
    (substance_costs : List Nat) (starting_node : Effects) : Option (List (List Label)) :=
  mospLoop graph substance_costs fuel (List.replicate graph.num_nodes [])
    [(graph.encodeFn starting_node,
      { length := 0, cost := 0, previous_substance := Substance.Cuke, backlink := NICHE })]

/-! ## Query layer (src/src/bin.rs) -/

/-- The loop of trace_path: while the label has a backlink, record the
substance, then look up the first label of length one less at the backlink node
(the expect panic on a missing connection is modelled as none).  Fuel bounds
the walk; none also means the fuel ran out. -/
def tracePathLoop : Nat → Label → List (List Label) → List Substance →
    Option (List Substance)
  | 0, _, _, _ => none
  | fuel + 1, l, paths, path =>
    match l.getBacklink with
    | none => some path.reverse
    | some (next, s) =>
      match (paths.getD next []).find? (fun candidate => candidate.length = l.length - 1) with
      | none => none
      | some nl => tracePathLoop fuel nl paths (path ++ [s])

/-- trace_path from src/src/bin.rs. -/
def trace_path (fuel : Nat) (start : Label) (paths : List (List Label)) :
    Option (List Substance) :=
  tracePathLoop fuel start paths []

/-! ## Walk semantics

A walk in the effect graph is a list of substances applied from a node; these
definitions state what a walk reaches and costs (used to state the MOSP
claims). -/

/-- End node of a walk: follow the successor edges. -/
def walkEnd (g : EffectGraph) (u : Nat) : List Substance → Nat
  | [] => u
  | s :: rest => walkEnd g (g.succFn u (substanceIdx s)) rest

/-- Cost of a walk under a substance cost vector. -/
def walkCost (costs : List Nat) (subs : List Substance) : Nat :=
  (subs.map (fun s => costs.getD (substanceIdx s) 0)).sum

/-! ## Concrete instances for the MOSP/trace evaluations -/

/-- Rule table over the 2-effect universe (bits 0 and 1): Cuke rewrites bit 1
to bit 0 when bit 0 is absent and has inherent effect bit 0; FluMedicine has
inherent effects bits 0 and 1; Gasoline has inherent effect bit 1; every other
substance is inert. -/
def rulesC1 : MixtureRules :=
  { replacement_rules := fun s =>
      match s with
      | Substance.Cuke => [{ if_present := 2, if_not_present := 1, remove := 2, add := 1 }]
      | _ => []
    inherent_effects := fun s =>
      match s with
      | Substance.Cuke => 1
      | Substance.FluMedicine => 3
      | Substance.Gasoline => 2
      | _ => 0
    price_mults := fun _ => 0 }

/-- Substance cost vector for the rulesC1 run: Cuke costs 1, FluMedicine 10,
Gasoline 1, every inert substance 100. -/
def costsC1 : List Nat :=
  [1, 10, 1, 100, 100, 100, 100, 100, 100, 100, 100, 100, 100, 100, 100, 100]

/-- The effect graph of rulesC1 at N = 2, MAX_K = 2 (4 nodes). -/
def graphC1 : EffectGraph := EffectGraph.new 2 2 rulesC1

/-- Rule table over the 2-effect universe: Cuke has inherent effect bit 0,
FluMedicine bit 1, HorseSemen bits 0 and 1; no replacement rules. -/
def rulesC3 : MixtureRules :=
  { replacement_rules := fun _ => []
    inherent_effects := fun s =>
      match s with
      | Substance.Cuke => 1
      | Substance.FluMedicine => 2
      | Substance.HorseSemen => 3
      | _ => 0
    price_mults := fun _ => 0 }

/-- The in-game substance cost vector, as built by shortest_path in
src/src/bin.rs (substance_cost cast to Cost). -/
def costsGame : List Nat := SUBSTANCES.map (fun s => (substance_cost s).toNat)

/-- The effect graph of rulesC3 at N = 2, MAX_K = 2. -/
def graphC3 : EffectGraph := EffectGraph.new 2 2 rulesC3

/-! ## Claim C1: the MOSP run on rulesC1 misses a Pareto-optimal walk

On the 4-node graph of rulesC1 with the (non-negative) cost vector costsC1 and
start node 0 (the empty effect set), the walk Cuke-then-Gasoline reaches node 3
with (length, cost) = (2, 2), but the returned permanent label set at node 3 is
exactly the single label (1, 10), which does not weakly dominate (2, 2).  The
backfill step regenerates candidates only through the first substance found in
the predecessor's successor row (FluMedicine, cost 10), never through the
cheaper parallel Gasoline edge, and the push_increase discipline has already
discarded the (2, 2) label while (1, 10) was pending. -/
theorem c1_mosp_misses_pareto_walk :
    graphC1.encodeFn 0 = 0 ∧ graphC1.num_nodes = 4 ∧
    multiobjective_shortest_path 50 graphC1 costsC1 0 =
      some [[{ length := 0, cost := 0, previous_substance := Substance.Cuke, backlink := NICHE }],
            [{ length := 1, cost := 1, previous_substance := Substance.Cuke, backlink := 0 }],
            [{ length := 1, cost := 1, previous_substance := Substance.Gasoline, backlink := 0 }],
            [{ length := 1, cost := 10, previous_substance := Substance.FluMedicine,
               backlink := 0 }]] ∧
    walkEnd graphC1 0 [Substance.Cuke, Substance.Gasoline] = 3 ∧
    walkCost costsC1 [Substance.Cuke, Substance.Gasoline] = 2 ∧
    ∀ l ∈ ((multiobjective_shortest_path 50 graphC1 costsC1 0).getD []).getD 3 [],
      ¬(l.length ≤ 2 ∧ l.cost ≤ 2) := by
  decide

/-! ## Claim C3: trace_path on a backfilled label breaks the cost equation

On the 4-node graph of rulesC3 with the in-game substance costs and start node
0 (the starting effect set of Meth/Cocaine), the artifact contains at node 3
the backfilled label (length 2, cost 7, previous substance Cuke, backlink 3):
its backlink points at node 3 itself instead of its predecessor.  trace_path
then reconstructs the recipe [HorseSemen, Cuke], whose substance costs sum to
11, not the label's cost 7. -/
theorem c3_trace_path_cost_mismatch :
    multiobjective_shortest_path 50 graphC3 costsGame 0 =
      some [[{ length := 0, cost := 0, previous_substance := Substance.Cuke, backlink := NICHE }],
            [{ length := 1, cost := 2, previous_substance := Substance.Cuke, backlink := 0 }],
            [{ length := 1, cost := 5, previous_substance := Substance.FluMedicine,
               backlink := 0 }],
            [{ length := 1, cost := 9, previous_substance := Substance.HorseSemen, backlink := 0 },
             { length := 2, cost := 7, previous_substance := Substance.Cuke, backlink := 3 }]] ∧
    trace_path 10
        { length := 2, cost := 7, previous_substance := Substance.Cuke, backlink := 3 }
        ((multiobjective_shortest_path 50 graphC3 costsGame 0).getD []) =
      some [Substance.HorseSemen, Substance.Cuke] ∧
    ([Substance.HorseSemen, Substance.Cuke].map substance_cost).sum = 11 ∧
    ¬(([Substance.HorseSemen, Substance.Cuke].map substance_cost).sum = (7 : Int)) := by
  decide

/-! ## Claim C5: the rule guard is not-superset, not empty-intersection -/

/-- Modelled on the words of the spec sentence for C5: identical to ruleStep
except that the negative guard asks for an empty intersection of the effect
set with if_not_present, instead of the code's not-contains. -/
def ruleStepIntersectionGuard (e : Effects) (rule : Rule) : Effects :=
  if containsE e rule.if_present && (e &&& rule.if_not_present == 0) then
    insertE (removeE e rule.remove) rule.add
  else e

/-- A single-rule table for Cuke with empty if_present and empty
if_not_present, adding bit 0. -/
def rulesC5 : MixtureRules :=
  { replacement_rules := fun s =>
      match s with
      | Substance.Cuke => [{ if_present := 0, if_not_present := 0, remove := 0, add := 1 }]
      | _ => []
    inherent_effects := fun _ => 0
    price_mults := fun _ => 0 }

/-- On the empty effect set, the intersection with the empty if_not_present is
empty, so by the claim the rule must fire and produce bit 0; but contains on
the empty if_not_present is always true, so the code's guard fails and the
rule cannot fire.  The two step functions differ, refuting the claimed iff. -/
theorem c5_guard_counterexample :
    ruleStep 0 { if_present := 0, if_not_present := 0, remove := 0, add := 1 } = 0 ∧
    ruleStepIntersectionGuard 0 { if_present := 0, if_not_present := 0, remove := 0, add := 1 } = 1 ∧
    rulesC5.apply Substance.Cuke 0 = 0 ∧
    ¬(rulesC5.apply Substance.Cuke 0 =
        ruleStepIntersectionGuard 0 { if_present := 0, if_not_present := 0, remove := 0, add := 1 }) := by
  decide

/-- The set of bit positions of an effect mask. -/
def toSet (e : Effects) : Set ℕ := { i | e.testBit i }

theorem toSet_insertE (a b : Effects) : toSet (insertE a b) = toSet a ∪ toSet b := by
  ext i
  simp [toSet, insertE, Nat.testBit_lor]

theorem removeE_testBit (a b : Effects) (i : ℕ) :
    (removeE a b).testBit i = (a.testBit i && !b.testBit i) := by
  simp only [removeE, Nat.testBit_land, Nat.testBit_xor]
  cases a.testBit i <;> cases b.testBit i <;> rfl

theorem toSet_removeE (a b : Effects) : toSet (removeE a b) = toSet a \ toSet b := by
  ext i
  simp only [toSet, Set.mem_setOf_eq, Set.mem_diff, removeE_testBit]
  cases a.testBit i <;> cases b.testBit i <;> simp

theorem containsE_iff (a b : Effects) : containsE a b = true ↔ toSet b ⊆ toSet a := by
  constructor
  · intro h i hi
    have hab : a &&& b = b := by simpa [containsE] using h
    have := congrArg (fun x => x.testBit i) hab
    simp only [Nat.testBit_land] at this
    simp only [toSet, Set.mem_setOf_eq] at hi ⊢
    cases ha : a.testBit i <;> simp [ha, hi] at this ⊢
  · intro h
    simp only [containsE, decide_eq_true_eq]
    apply Nat.eq_of_testBit_eq
    intro i
    simp only [Nat.testBit_land]
    cases hb : b.testBit i
    · simp
    · have := h (by simpa [toSet, Set.mem_setOf_eq] using hb)
      simp only [toSet, Set.mem_setOf_eq] at this
      simp [this]

/-- Amended claim C5: in MixtureRules::apply a rule fires iff the effect set
contains all of if_present and does not contain all of if_not_present; when it
fires, the effect set becomes (effects minus remove) union add. -/
theorem c5_rule_guard_amended (e : Effects) (rule : Rule) :
    ((toSet rule.if_present ⊆ toSet e ∧ ¬ toSet rule.if_not_present ⊆ toSet e) →
       toSet (ruleStep e rule) = (toSet e \ toSet rule.remove) ∪ toSet rule.add) ∧
    (¬(toSet rule.if_present ⊆ toSet e ∧ ¬ toSet rule.if_not_present ⊆ toSet e) →
       ruleStep e rule = e) := by
  constructor
  · rintro ⟨h1, h2⟩
    have g1 : containsE e rule.if_present = true := (containsE_iff _ _).mpr h1
    have g2 : containsE e rule.if_not_present = false := by
      cases hg : containsE e rule.if_not_present
      · rfl
      · exact absurd ((containsE_iff _ _).mp hg) h2
    simp only [ruleStep, g1, g2, Bool.not_false, Bool.and_true, if_true]
    rw [toSet_insertE, toSet_removeE]
  · intro h
    rcases not_and_or.mp h with h1 | h2
    · have g1 : containsE e rule.if_present = false := by
        cases hg : containsE e rule.if_present
        · rfl
        · exact absurd ((containsE_iff _ _).mp hg) h1
      simp [ruleStep, g1]
    · have h2 : toSet rule.if_not_present ⊆ toSet e := not_not.mp h2
      have g2 : containsE e rule.if_not_present = true := (containsE_iff _ _).mpr h2
      simp [ruleStep, g2]

/-- Concrete application of c5_rule_guard_amended: for the rule rewriting bit 1
to bit 0 unless bit 0 is present, the effect set of bit 1 alone fires the rule
and yields bit 0 union bit 1 minus bit 1, while the set of bits 0 and 1 does
not fire it. -/
theorem c5_rule_guard_amended_witness :
    toSet (ruleStep 2 { if_present := 2, if_not_present := 1, remove := 2, add := 1 }) =
      (toSet 2 \ toSet 2) ∪ toSet 1 ∧
    ruleStep 3 { if_present := 2, if_not_present := 1, remove := 2, add := 1 } = 3 := by
  constructor
  · exact (c5_rule_guard_amended 2 { if_present := 2, if_not_present := 1, remove := 2, add := 1 }).1
      ⟨by intro i hi; simpa [toSet] using hi,
       by
        intro hsub
        have h0 : (0 : ℕ) ∈ toSet 1 := by simp [toSet]
        have := hsub h0
        simp [toSet] at this⟩
  · exact (c5_rule_guard_amended 3 { if_present := 2, if_not_present := 1, remove := 2, add := 1 }).2
      (by
        rintro ⟨-, h2⟩
        exact h2 (by
          intro i hi
          simp only [toSet, Set.mem_setOf_eq] at hi ⊢
          have h1 : (1 : ℕ) = 2 ^ 0 := rfl
          rw [h1, Nat.testBit_two_pow] at hi
          have h0 : i = 0 := (of_decide_eq_true hi).symm
          subst h0
          decide))

/-! ## Claim C9: apply does not preserve the size bound in general -/

/-- A single-rule table for Cuke that fires on any set not containing bit 9 and
adds bit 8; no inherent effects. -/
def rulesC9 : MixtureRules :=
  { replacement_rules := fun s =>
      match s with
      | Substance.Cuke => [{ if_present := 0, if_not_present := 512, remove := 0, add := 256 }]
      | _ => []
    inherent_effects := fun _ => 0
    price_mults := fun _ => 0 }

/-- On the 8-element effect set of bits 0..7, Cuke's rule fires (bit 9 is not
fully present) and adds bit 8, yielding 9 effects: the guard on the inherent
union does not bound the rule rewrites themselves, refuting the claim. -/
theorem c9_size_bound_counterexample :
    count_ones 255 ≤ 8 ∧ rulesC9.apply Substance.Cuke 255 = 511 ∧
    ¬(count_ones (rulesC9.apply Substance.Cuke 255) ≤ 8) := by
  decide

/-- The finite set of bit positions below k of an effect mask. -/
def bitFinset (k e : Nat) : Finset ℕ := (Finset.range k).filter (fun i => e.testBit i)

theorem count_ones_eq_card : ∀ k e, e < 2 ^ k → count_ones e = (bitFinset k e).card := by
  intro k
  induction k with
  | zero =>
    intro e he
    interval_cases e
    decide
  | succ k ih =>
    intro e he
    rw [count_ones_eq]
    by_cases h0 : e = 0
    · subst h0
      simp [bitFinset, Nat.zero_testBit]
    · simp only [h0, if_false]
      have hdiv : e / 2 < 2 ^ k := by
        rw [pow_succ] at he
        omega
      rw [ih _ hdiv]
      have hcardsucc : (bitFinset (k + 1) e).card = e % 2 + (bitFinset k (e / 2)).card := by
        simp only [bitFinset, Finset.card_filter]
        rw [Finset.sum_range_succ']
        have hstep : ∀ i, (if e.testBit (i + 1) then (1 : ℕ) else 0) =
            if (e / 2).testBit i then 1 else 0 := by
          intro i
          rw [Nat.testBit_succ]
        rw [Finset.sum_congr rfl (fun i _ => hstep i), Nat.testBit_zero]
        rcases Nat.mod_two_eq_zero_or_one e with hm | hm <;> simp [hm] <;> omega
      omega

theorem bitFinset_lor (k a b : Nat) :
    bitFinset k (a ||| b) = bitFinset k a ∪ bitFinset k b := by
  ext i
  simp only [bitFinset, Finset.mem_filter, Finset.mem_union, Nat.testBit_lor, Bool.or_eq_true]
  tauto

theorem bitFinset_removeE (k a b : Nat) :
    bitFinset k (removeE a b) = bitFinset k a \ bitFinset k b := by
  ext i
  simp only [bitFinset, Finset.mem_filter, Finset.mem_sdiff, removeE_testBit,
    Bool.and_eq_true, Bool.not_eq_true']
  constructor
  · rintro ⟨hr, ha, hb⟩
    exact ⟨⟨hr, ha⟩, fun h => by simp [h.2] at hb⟩
  · rintro ⟨⟨hr, ha⟩, hb⟩
    refine ⟨hr, ha, ?_⟩
    cases hbt : b.testBit i
    · rfl
    · exact absurd ⟨hr, hbt⟩ hb

theorem bitFinset_subset_of_containsE {a b : Nat} (h : containsE a b = true) (k : Nat) :
    bitFinset k b ⊆ bitFinset k a := by
  intro i hi
  simp only [bitFinset, Finset.mem_filter] at hi ⊢
  exact ⟨hi.1, (containsE_iff a b).mp h hi.2⟩

theorem containsE_le {a b : Nat} (h : containsE a b = true) : b ≤ a := by
  have hab : a &&& b = b := by simpa [containsE] using h
  calc b = a &&& b := hab.symm
  _ ≤ a := Nat.and_le_left

theorem count_ones_lor_le (k a b : Nat) (ha : a < 2 ^ k) (hb : b < 2 ^ k) :
    count_ones (a ||| b) ≤ count_ones a + count_ones b := by
  rw [count_ones_eq_card k _ (Nat.or_lt_two_pow ha hb), count_ones_eq_card k a ha,
    count_ones_eq_card k b hb, bitFinset_lor]
  exact Finset.card_union_le _ _

theorem count_ones_removeE (k a b : Nat) (ha : a < 2 ^ k) (h : containsE a b = true) :
    count_ones (removeE a b) = count_ones a - count_ones b := by
  have hb : b < 2 ^ k := lt_of_le_of_lt (containsE_le h) ha
  have hrm : removeE a b < 2 ^ k := lt_of_le_of_lt Nat.and_le_left ha
  rw [count_ones_eq_card k _ hrm, count_ones_eq_card k a ha, count_ones_eq_card k b hb,
    bitFinset_removeE]
  exact Finset.card_sdiff (bitFinset_subset_of_containsE h k)

theorem count_ones_mono (k a b : Nat) (ha : a < 2 ^ k) (h : containsE a b = true) :
    count_ones b ≤ count_ones a := by
  have hb : b < 2 ^ k := lt_of_le_of_lt (containsE_le h) ha
  rw [count_ones_eq_card k a ha, count_ones_eq_card k b hb]
  exact Finset.card_le_card (bitFinset_subset_of_containsE h k)

theorem containsE_trans {a b c : Nat} (h1 : containsE a b = true) (h2 : containsE b c = true) :
    containsE a c = true := by
  rw [containsE_iff] at h1 h2 ⊢
  exact h2.trans h1

/-- One rule step does not increase the popcount, provided the rule removes
only effects its own if_present guarantees present and adds no more bits than
it removes. -/
theorem ruleStep_count_le (e : Effects) (r : Rule) (he : e < 2 ^ 64)
    (h1 : containsE r.if_present r.remove = true)
    (h2 : count_ones r.add ≤ count_ones r.remove) (ha : r.add < 2 ^ 64) :
    count_ones (ruleStep e r) ≤ count_ones e ∧ ruleStep e r < 2 ^ 64 := by
  rw [ruleStep]
  split
  · next hg =>
    have hgp : containsE e r.if_present = true := by
      cases hc : containsE e r.if_present
      · rw [hc] at hg
        simp at hg
      · rfl
    have hrem : containsE e r.remove = true := containsE_trans hgp h1
    have hrm_lt : removeE e r.remove < 2 ^ 64 := lt_of_le_of_lt Nat.and_le_left he
    have hcount_rm : count_ones (removeE e r.remove) = count_ones e - count_ones r.remove :=
      count_ones_removeE 64 _ _ he hrem
    have hrem_le : count_ones r.remove ≤ count_ones e := count_ones_mono 64 _ _ he hrem
    constructor
    · calc count_ones (insertE (removeE e r.remove) r.add)
          ≤ count_ones (removeE e r.remove) + count_ones r.add :=
            count_ones_lor_le 64 _ _ hrm_lt ha
      _ = count_ones e - count_ones r.remove + count_ones r.add := by rw [hcount_rm]
      _ ≤ count_ones e := by omega
    · exact Nat.or_lt_two_pow hrm_lt ha
  · exact ⟨le_refl _, he⟩

theorem foldl_ruleStep_count (l : List Rule) : ∀ e : Effects, e < 2 ^ 64 →
    (∀ r ∈ l, containsE r.if_present r.remove = true ∧
      count_ones r.add ≤ count_ones r.remove ∧ r.add < 2 ^ 64) →
    count_ones (l.foldl ruleStep e) ≤ count_ones e ∧ l.foldl ruleStep e < 2 ^ 64 := by
  induction l with
  | nil => intro e he _; exact ⟨le_refl _, he⟩
  | cons r l ih =>
    intro e he hr
    obtain ⟨h1, h2, ha⟩ := hr r (List.mem_cons_self r l)
    obtain ⟨hc, hlt⟩ := ruleStep_count_le e r he h1 h2 ha
    obtain ⟨hc2, hlt2⟩ := ih (ruleStep e r) hlt (fun r hrm => hr r (List.mem_cons_of_mem _ hrm))
    exact ⟨le_trans hc2 hc, hlt2⟩

/-- Amended claim C9: MixtureRules::apply maps effect sets of at most
MAX_EFFECTS bits to effect sets of at most MAX_EFFECTS bits provided every
rule of the substance removes only bits guaranteed by its if_present set and
adds at most as many bits as it removes, and the substance's inherent effect
set has at most one bit (all masks within u64 range). -/
theorem c9_size_bound_amended (rules : MixtureRules) (s : Substance) (e : Effects)
    (he64 : e < 2 ^ 64)
    (hr : ∀ r ∈ rules.replacement_rules s, containsE r.if_present r.remove = true ∧
      count_ones r.add ≤ count_ones r.remove ∧ r.add < 2 ^ 64)
    (hinh : count_ones (rules.inherent_effects s) ≤ 1)
    (hinh64 : rules.inherent_effects s < 2 ^ 64)
    (he : count_ones e ≤ MAX_EFFECTS) :
    count_ones (rules.apply s e) ≤ MAX_EFFECTS := by
  obtain ⟨hc, hlt⟩ := foldl_ruleStep_count (rules.replacement_rules s) e he64 hr
  simp only [MixtureRules.apply, insertE]
  split
  · next hsmall =>
    have hins := count_ones_lor_le 64 ((rules.replacement_rules s).foldl ruleStep e)
      (rules.inherent_effects s) hlt hinh64
    omega
  · exact le_trans hc he

/-- Concrete application of c9_size_bound_amended to the rulesC1 table. -/
theorem c9_size_bound_amended_witness :
    (2 : Nat) < 2 ^ 64 ∧
    (∀ r ∈ rulesC1.replacement_rules Substance.Cuke,
      containsE r.if_present r.remove = true ∧
      count_ones r.add ≤ count_ones r.remove ∧ r.add < 2 ^ 64) ∧
    count_ones (rulesC1.inherent_effects Substance.Cuke) ≤ 1 ∧
    rulesC1.inherent_effects Substance.Cuke < 2 ^ 64 ∧
    count_ones 2 ≤ MAX_EFFECTS ∧
    count_ones (rulesC1.apply Substance.Cuke 2) ≤ MAX_EFFECTS :=
  ⟨by decide, by decide, by decide, by decide, by decide,
    c9_size_bound_amended rulesC1 Substance.Cuke 2 (by decide) (by decide) (by decide)
      (by decide) (by decide)⟩

/-! ## Claim C8: rule loading on cyclic dependencies (src/src/mixing/mod.rs)

parse_rules_file is modelled from the point after JSON deserialization: effect
code strings are already folded into masks (an unknown effect code panics in
string_to_effect before any of the logic modelled here runs), unknown
substance codes are the None case of requires_substance (the source skips such
rules), and the f64 price-weight parsing is omitted (no claim concerns it).
The unwrap panic on an unknown substance in the effects section is modelled as
Except.error. -/

/-- A rule as it arrives from the JSON file. -/
structure RuleJson where
  if_present : Effects
  if_not_present : Effects
  requires_substance : Option Substance
  replace : List (Effects × Effects)
deriving DecidableEq, Repr

/-- The parsed rules file (effects section and rules section). -/
structure RulesFileData where
  effects : List (Option Substance × Effects)
  rules : List RuleJson
deriving DecidableEq, Repr

/-- TopologicalSort::add_dependency: register both endpoints and the edge
(prec before succ). -/
def tsAddDependency (st : List Effects × List (Effects × Effects)) (prec succ : Effects) :
    List Effects × List (Effects × Effects) :=
  let nodes := if prec ∈ st.1 then st.1 else st.1 ++ [prec]
  let nodes := if succ ∈ nodes then nodes else nodes ++ [succ]
  (nodes, st.2 ++ [(prec, succ)])

/-- One pop of the topological sort: the first registered node with no incoming
edge is emitted and its outgoing edges removed.  The crate leaves the choice
among simultaneously ready nodes unspecified (hash order); this model refines
it to registration order. -/
def tsPop (nodes : List Effects) (edges : List (Effects × Effects)) :
    Option (Effects × List Effects × List (Effects × Effects)) :=
  match nodes.find? (fun n => !edges.any (fun e => e.2 = n)) with
  | none => none
  | some n => some (n, nodes.erase n, edges.filter (fun e => e.1 ≠ n))

/-- Iterating the TopologicalSort: yields until no node is ready; on a cycle
the iteration simply ends with the cyclic nodes never emitted. -/
def tsIterate : Nat → List Effects → List (Effects × Effects) → List Effects
  | 0, _, _ => []
  | fuel + 1, nodes, edges =>
    match tsPop nodes edges with
    | none => []
    | some (n, nodes', edges') => n :: tsIterate fuel nodes' edges'

/-- The per-substance reordering step of parse_rules_file: topo-sort the
dependency if_not_present before if_present, and rebuild the rule list by
looking up, for each emitted effect set, the first rule whose if_present
equals it. -/
def topoSortRules (rules : List Rule) : List Rule :=
  let st := rules.foldl (fun st r => tsAddDependency st r.if_not_present r.if_present) ([], [])
  let order := tsIterate st.1.length st.1 st.2
  order.foldl (fun new_order effects =>
    match rules.find? (fun r => r.if_present = effects) with
    | some r => new_order ++ [r]
    | none => new_order) []

/-- parse_rules_file after JSON deserialization: build the per-substance rule
lists (skipping rules whose substance code is unknown, folding the replace map
into remove/add masks), topo-sort each list, then read the inherent effects
section. -/
def parse_rules (f : RulesFileData) : Except String MixtureRules := do
  let replacement_rules := f.rules.foldl (fun (acc : Substance → List Rule) rule_json =>
    match rule_json.requires_substance with
    | none => acc
    | some substance =>
      let remove := rule_json.replace.foldl (fun m p => m ||| p.1) 0
      let add := rule_json.replace.foldl (fun m p => m ||| p.2) 0
      let rule : Rule :=
        { if_present := rule_json.if_present
          if_not_present := rule_json.if_not_present
          remove := remove
          add := add }
      fun s => if s = substance then acc s ++ [rule] else acc s) (fun _ => [])
  let sorted_rules := fun s => topoSortRules (replacement_rules s)
  let inherent ← f.effects.foldlM (fun (acc : Substance → Effects) p =>
      match p.1 with
      | none => Except.error "unknown substance in effects section"
      | some s => Except.ok (fun s2 => if s2 = s then p.2 else acc s2))
    (fun _ => (0 : Effects))
  Except.ok
    { replacement_rules := sorted_rules
      inherent_effects := inherent
      price_mults := fun _ => 0 }

/-- A rules file whose two Cuke rules form a dependency cycle: the first rule
has if_present bit 1 and if_not_present bit 2, the second the reverse, giving
the edges bit2-set before bit1-set and bit1-set before bit2-set. -/
def cyclicRulesFile : RulesFileData :=
  { effects := []
    rules :=
      [{ if_present := 2, if_not_present := 4, requires_substance := some Substance.Cuke,
         replace := [(2, 4)] },
       { if_present := 4, if_not_present := 2, requires_substance := some Substance.Cuke,
         replace := [(4, 2)] }] }

/-- Projection of a parse result onto one substance's rule list (the error
branch yields a dummy nonempty list so the projection is conclusive only
together with isOk). -/
def rulesOfResult (r : Except String MixtureRules) (s : Substance) : List Rule :=
  match r with
  | Except.ok m => m.replacement_rules s
  | Except.error _ => [{ if_present := 1, if_not_present := 1, remove := 1, add := 1 }]

/-- On the cyclic input, parse_rules succeeds instead of returning Err,
refuting the claim that a cyclic rule dependency fails loading. -/
theorem c8_cycle_returns_ok_counterexample :
    (parse_rules cyclicRulesFile).isOk = true := by
  decide

/-- Amended claim C8: on a cyclic rule dependency, parse_rules_file returns Ok
and silently drops the rules the topological sort cannot emit - here the whole
Cuke rule list. -/
theorem c8_cycle_silently_drops :
    (parse_rules cyclicRulesFile).isOk = true ∧
    rulesOfResult (parse_rules cyclicRulesFile) Substance.Cuke = [] := by
  decide

/-! ## Claim C4: graph construction is correct and self-consistent -/

theorem foldl_predInsert (succ : Nat → Nat → Nat) (v : Nat) :
    ∀ (S : List Nat) (P : Nat → List Nat) (w : Nat),
      (S.foldl (predInsert succ v) P) w =
        if (∃ s ∈ S, succ v s = w) ∧ w ≠ v ∧ v ∉ P w then P w ++ [v] else P w := by
  intro S
  induction S with
  | nil =>
    intro P w
    simp
  | cons s0 S ih =>
    intro P w
    rw [List.foldl_cons, ih]
    by_cases h1 : succ v s0 = v
    · have hP1 : predInsert succ v P s0 = P := by
        simp [predInsert, h1]
      rw [hP1]
      by_cases hw : w = v
      · subst hw
        simp
      · have hiff : (∃ s ∈ s0 :: S, succ v s = w) ↔ (∃ s ∈ S, succ v s = w) := by
          constructor
          · rintro ⟨s, hs, hsw⟩
            rcases List.mem_cons.mp hs with rfl | hs
            · exact absurd (h1.symm.trans hsw) (fun h => hw h.symm)
            · exact ⟨s, hs, hsw⟩
          · rintro ⟨s, hs, hsw⟩
            exact ⟨s, List.mem_cons_of_mem _ hs, hsw⟩
        rw [if_congr (and_congr_left' hiff) rfl rfl]
    · by_cases h2 : v ∈ P (succ v s0)
      · have hP1 : predInsert succ v P s0 = P := by
          simp [predInsert, h1, h2]
        rw [hP1]
        by_cases hw : succ v s0 = w
        · subst hw
          have hvw : v ∈ P (succ v s0) := h2
          simp only [hvw, not_true_eq_false, and_false, if_false]
        · have hiff : (∃ s ∈ s0 :: S, succ v s = w) ↔ (∃ s ∈ S, succ v s = w) := by
            constructor
            · rintro ⟨s, hs, hsw⟩
              rcases List.mem_cons.mp hs with rfl | hs
              · exact absurd hsw hw
              · exact ⟨s, hs, hsw⟩
            · rintro ⟨s, hs, hsw⟩
              exact ⟨s, List.mem_cons_of_mem _ hs, hsw⟩
          rw [if_congr (and_congr_left' hiff) rfl rfl]
      · by_cases hw : w = succ v s0
        · subst hw
          have hP1 : predInsert succ v P s0 (succ v s0) = P (succ v s0) ++ [v] := by
            simp [predInsert, h1, h2]
          rw [hP1]
          have hvmem : v ∈ P (succ v s0) ++ [v] :=
            List.mem_append_right _ (List.mem_singleton_self v)
          rw [if_neg (by rintro ⟨-, -, hmem⟩; exact hmem hvmem)]
          have hcond : (∃ s ∈ s0 :: S, succ v s = succ v s0) ∧ succ v s0 ≠ v ∧
              v ∉ P (succ v s0) :=
            ⟨⟨s0, List.mem_cons_self _ _, rfl⟩, fun h => h1 h, h2⟩
          rw [if_pos hcond]
        · have hP1 : predInsert succ v P s0 w = P w := by
            simp only [predInsert]
            rw [if_neg h1, if_neg h2]
            exact if_neg hw
          rw [hP1]
          have hiff : (∃ s ∈ s0 :: S, succ v s = w) ↔ (∃ s ∈ S, succ v s = w) := by
            constructor
            · rintro ⟨s, hs, hsw⟩
              rcases List.mem_cons.mp hs with rfl | hs
              · exact absurd hsw.symm (fun h => hw h)
              · exact ⟨s, hs, hsw⟩
            · rintro ⟨s, hs, hsw⟩
              exact ⟨s, List.mem_cons_of_mem _ hs, hsw⟩
          rw [if_congr (and_congr_left' hiff) rfl rfl]

theorem buildPreds_eq (succ : Nat → Nat → Nat) :
    ∀ M w, buildPreds M succ w =
      (List.range M).filter
        (fun v => decide (v ≠ w) && (List.range 16).any (fun s => decide (succ v s = w))) := by
  intro M
  induction M with
  | zero =>
    intro w
    rfl
  | succ M ih =>
    intro w
    have hsplit : buildPreds (M + 1) succ w =
        ((List.range 16).foldl (predInsert succ M) (buildPreds M succ)) w := by
      show ((List.range (M + 1)).foldl
          (fun P idx => (List.range 16).foldl (predInsert succ idx) P) (fun _ => [])) w = _
      rw [List.range_succ M,
        List.foldl_append]
      rfl
    rw [hsplit, foldl_predInsert]
    have hmem : M ∉ buildPreds M succ w := by
      rw [ih]
      intro hM
      have := (List.mem_filter.mp hM).1
      exact absurd (List.mem_range.mp this) (lt_irrefl M)
    rw [List.range_succ M,
      List.filter_append]
    by_cases hc : (∃ s ∈ List.range 16, succ M s = w) ∧ w ≠ M
    · obtain ⟨⟨s, hs, hsw⟩, hwM⟩ := hc
      rw [if_pos ⟨⟨s, hs, hsw⟩, hwM, hmem⟩, ih]
      have : List.filter
          (fun v => decide (v ≠ w) && (List.range 16).any fun s => decide (succ v s = w)) [M] =
          [M] := by
        simp only [List.filter]
        have h1 : (decide (M ≠ w) && (List.range 16).any fun s => decide (succ M s = w)) =
            true := by
          rw [Bool.and_eq_true]
          refine ⟨decide_eq_true (fun h => hwM h.symm), ?_⟩
          rw [List.any_eq_true]
          exact ⟨s, hs, decide_eq_true hsw⟩
        rw [h1]
      rw [this]
    · have hor : ¬(∃ s ∈ List.range 16, succ M s = w) ∨ w = M := by
        by_cases h1 : w = M
        · exact Or.inr h1
        · exact Or.inl (fun hex => hc ⟨hex, h1⟩)
      rw [if_neg (by
        rintro ⟨hex, hwM, -⟩
        rcases hor with h | h
        · exact h hex
        · exact hwM h), ih]
      have : List.filter
          (fun v => decide (v ≠ w) && (List.range 16).any fun s => decide (succ v s = w)) [M] =
          [] := by
        simp only [List.filter]
        have h1 : (decide (M ≠ w) && (List.range 16).any fun s => decide (succ M s = w)) =
            false := by
          rcases hor with h | h
          · have hany : ((List.range 16).any fun s => decide (succ M s = w)) = false := by
              rw [List.any_eq_false]
              intro s hs
              simp only [decide_eq_true_eq]
              exact fun hsw => h ⟨s, hs, hsw⟩
            rw [hany, Bool.and_false]
          · have hd : decide (M ≠ w) = false := by
              subst h
              simp
            rw [hd, Bool.false_and]
        rw [h1]
      rw [this, List.append_nil]

/-- Claim C4: in EffectGraph::new, every successor entry is
encode(apply(s, decode(u))), and the predecessor list of any node w holds
exactly the nodes v below M, different from w, some substance of which maps v
to w, without duplicates. -/
theorem c4_graph_construction (N MAX_K : Nat) (rules : MixtureRules) :
    (∀ u s, s < 16 → ((EffectGraph.new N MAX_K rules).successors u).get? s =
      some (encode N (rules.apply (SUBSTANCES.getD s Substance.Cuke) (decode N MAX_K u)))) ∧
    (∀ w v, v ∈ (EffectGraph.new N MAX_K rules).predList w ↔
      v < maximum_index N MAX_K ∧ v ≠ w ∧
        ∃ s, s < 16 ∧ (EffectGraph.new N MAX_K rules).succFn v s = w) ∧
    (∀ w, ((EffectGraph.new N MAX_K rules).predList w).Nodup) := by
  refine ⟨?_, ?_, ?_⟩
  · intro u s hs
    simp only [EffectGraph.successors, EffectGraph.new]
    rw [List.get?_map, List.get?_range hs]
    rfl
  · intro w v
    show v ∈ buildPreds (maximum_index N MAX_K) _ w ↔ _
    rw [buildPreds_eq, List.mem_filter, List.mem_range, Bool.and_eq_true, decide_eq_true_eq,
      List.any_eq_true]
    constructor
    · rintro ⟨hv, hne, s, hs, hsw⟩
      exact ⟨hv, hne, s, List.mem_range.mp hs, of_decide_eq_true hsw⟩
    · rintro ⟨hv, hne, s, hs, hsw⟩
      exact ⟨hv, hne, s, List.mem_range.mpr hs, decide_eq_true hsw⟩
  · intro w
    show (buildPreds (maximum_index N MAX_K) _ w).Nodup
    rw [buildPreds_eq]
    exact (List.nodup_range _).filter _

/-- Concrete application of c4_graph_construction on the rulesC3 graph. -/
theorem c4_graph_construction_witness :
    ((EffectGraph.new 2 2 rulesC3).successors 0).get? 0 =
      some (encode 2 (rulesC3.apply (SUBSTANCES.getD 0 Substance.Cuke) (decode 2 2 0))) ∧
    (0 ∈ (EffectGraph.new 2 2 rulesC3).predList 3 ↔
      0 < maximum_index 2 2 ∧ 0 ≠ 3 ∧
        ∃ s, s < 16 ∧ (EffectGraph.new 2 2 rulesC3).succFn 0 s = 3) ∧
    ((EffectGraph.new 2 2 rulesC3).predList 3).Nodup :=
  ⟨(c4_graph_construction 2 2 rulesC3).1 0 0 (by decide),
   (c4_graph_construction 2 2 rulesC3).2.1 3 0,
   (c4_graph_construction 2 2 rulesC3).2.2 3⟩

/-! ## Claim C10: apply_substance and depth_first_search (src/src/search/mod.rs)

PackedValues<Substance, 4> (capacity 128/4 = 32) is modelled as a plain list
with the push failure at capacity; the f64 price arithmetic of profit is
modelled over the rationals, with f64::round as round-half-away-from-zero.
The four arithmetic operations on Rat are irreducible by default, which only
hinders tactic-side evaluation; they are restored to semireducible so concrete
runs can be evaluated by decide. -/

set_option allowUnsafeReducibility true
attribute [local semireducible] Rat.add Rat.mul Rat.inv Rat.sub

/-- Capacity of PackedValues<Substance, 4>: MAX_ENTRIES = 128 / 4. -/
def PACKED_CAPACITY : Nat := 32

/-- A search queue item (drug, packed substances, effect set). -/
structure SearchQueueItem where
  drug : Drugs
  substances : List Substance
  effects : Effects
deriving DecidableEq, Repr

/-- search/mod.rs apply_substance: None exactly when applying the substance
leaves the effect set unchanged, otherwise Some of the new effect set. -/
def apply_substance (effects : Effects) (substance : Substance) (rules : MixtureRules) :
    Option Effects :=
  let new_effects := rules.apply substance effects
  if new_effects = effects then none else some new_effects

/-- f64::round: round half away from zero. -/
def roundQ (q : ℚ) : Int := if q ≥ 0 then (q + 1/2).floor else (q - 1/2).ceil

/-- search/mod.rs profit: the sell price, capped at max_price, minus the sum
of the substance costs. -/
def profit (bp : ℚ) (substances : List Substance) (effects : Effects)
    (rules : MixtureRules) (max_price : Int) : Int :=
  let price := min (roundQ (bp * rules.price_multiplier effects)) max_price
  price - (substances.map substance_cost).sum

/-- Discriminant order of the Drugs enum. -/
def drugIdx : Drugs → Nat
  | Drugs.OGKush => 0
  | Drugs.SourDiesel => 1
  | Drugs.GreenCrack => 2
  | Drugs.GranddaddyPurple => 3
  | Drugs.Meth => 4
  | Drugs.Cocaine => 5

/-- Lexicographic comparison of substance lists (derived Ord of Vec). -/
def substancesLt : List Substance → List Substance → Bool
  | [], [] => false
  | [], _ :: _ => true
  | _ :: _, [] => false
  | a :: as2, b :: bs =>
    if substanceIdx a = substanceIdx b then substancesLt as2 bs
    else Nat.blt (substanceIdx a) (substanceIdx b)

/-- The derived lexicographic order on SearchQueueItem (drug, substances,
effects). -/
def searchItemLt (a b : SearchQueueItem) : Bool :=
  if drugIdx a.drug = drugIdx b.drug then
    if a.substances = b.substances then Nat.blt a.effects b.effects
    else substancesLt a.substances b.substances
  else Nat.blt (drugIdx a.drug) (drugIdx b.drug)

/-- PartialOrd::gt on (profit, item) pairs: the comparator passed to
TopSet::new. -/
def profitPairGt (a b : Int × SearchQueueItem) : Bool :=
  if a.1 = b.1 then searchItemLt b.2 a.2 else decide (b.1 < a.1)

/-- The TopSet from the topset crate: keeps at most cap items, the comparator
deciding whether a new item beats an old one. -/
structure TopSet (α : Type) where
  cap : Nat
  beats : α → α → Bool
  items : List α

/-- TopSet::new. -/
def TopSet.mkNew (α : Type) (cap : Nat) (beats : α → α → Bool) : TopSet α :=
  { cap := cap, beats := beats, items := [] }

/-- TopSet::peek: the item that would be evicted first, i.e. the minimum under
the comparator (the crate's iteration order for ties is unspecified; the runs
evaluated below never consult a tie). -/
def TopSet.peek {α : Type} (t : TopSet α) : Option α :=
  match t.items with
  | [] => none
  | x :: rest => some (rest.foldl (fun w y => if t.beats w y then y else w) x)

/-- TopSet::insert: push while below capacity, otherwise replace the current
worst item when the new one beats it. -/
def TopSet.insert {α : Type} [DecidableEq α] (t : TopSet α) (x : α) : TopSet α :=
  if t.items.length < t.cap then { t with items := x :: t.items }
  else
    match t.peek with
    | none => t
    | some w => if t.beats x w then { t with items := x :: t.items.erase w } else t

/-- Ascending insertion for into_sorted_vec: items that beat y are placed
after y. -/
def insertSorted {α : Type} (beats : α → α → Bool) (x : α) : List α → List α
  | [] => [x]
  | y :: ys => if beats x y then y :: insertSorted beats x ys else x :: y :: ys

/-- TopSet::into_sorted_vec: the kept items in ascending comparator order. -/
def TopSet.into_sorted_vec {α : Type} (t : TopSet α) : List α :=
  t.items.foldl (fun acc x => insertSorted t.beats x acc) []

/-- The body of the deduplication-and-insert sequence at the top of the
depth_first_search loop: compute the improvement flag from peek, adjust it
and drain duplicates of the popped item's effect set, and insert the
(profit, item) pair when it improves. -/
def dfsUpdateTop (p : Int) (item : SearchQueueItem)
    (top : TopSet (Int × SearchQueueItem)) : TopSet (Int × SearchQueueItem) :=
  let improvement0 : Bool :=
    match top.peek with
    | none => true
    | some pi => decide (pi.1 < p)
  match top.items.find? (fun pi => pi.2.effects = item.effects) with
  | some pi =>
    if pi.1 ≥ p then top
    else
      let drained := (top.items.filter (fun pi2 => ¬pi2.2.effects = item.effects)).foldl
        TopSet.insert (TopSet.mkNew _ top.cap top.beats)
      if improvement0 then drained.insert (p, item) else drained
  | none => if improvement0 then top.insert (p, item) else top

/-- The loop of search/mod.rs depth_first_search, with explicit fuel.  A
result of none means either the fuel ran out or a push to a full
PackedValues panicked (only possible past 32 substances). -/
def dfsLoop (rules : MixtureRules) (num_mixins : Nat) (markup : ℚ) (max_price : Int) :
    Nat → List SearchQueueItem → TopSet (Int × SearchQueueItem) →
      Option (List (Int × SearchQueueItem))
  | 0, _, _ => none
  | _ + 1, [], top => some top.into_sorted_vec
  | fuel + 1, item :: stack, top =>
    let p := profit (base_price item.drug * (1 + markup)) item.substances item.effects
      rules max_price
    let top := dfsUpdateTop p item top
    if item.substances.length = num_mixins then
      dfsLoop rules num_mixins markup max_price fuel stack top
    else
      let children := SUBSTANCES.filterMap (fun s =>
        (apply_substance item.effects s rules).map (fun eff =>
          (⟨item.drug, item.substances ++ [s], eff⟩ : SearchQueueItem)))
      if decide (PACKED_CAPACITY ≤ item.substances.length) && !children.isEmpty then none
      else dfsLoop rules num_mixins markup max_price fuel (children.reverse ++ stack) top

/-- search/mod.rs depth_first_search. -/
def depth_first_search (fuel : Nat) (rules : MixtureRules) (initial : SearchQueueItem)
    (max_results num_mixins : Nat) (markup : ℚ) (max_price : Int) :
    Option (List (Int × SearchQueueItem)) :=
  dfsLoop rules num_mixins markup max_price fuel [initial]
    (TopSet.mkNew _ max_results profitPairGt)

/-- Reachability from the initial item by substance applications that are
not no-ops at the point they are applied (exactly the items apply_substance
lets depth_first_search explore). -/
inductive Reaches (rules : MixtureRules) (initial : SearchQueueItem) : SearchQueueItem → Prop
  | refl : Reaches rules initial initial
  | step {item : SearchQueueItem} {s : Substance} {eff : Effects} :
      Reaches rules initial item →
      apply_substance item.effects s rules = some eff →
      Reaches rules initial ⟨item.drug, item.substances ++ [s], eff⟩

theorem mem_insertSorted {α : Type} (beats : α → α → Bool) (x : α) :
    ∀ (l : List α) (y : α), y ∈ insertSorted beats x l → y = x ∨ y ∈ l := by
  intro l
  induction l with
  | nil =>
    intro y hy
    simp [insertSorted] at hy
    exact Or.inl hy
  | cons z zs ih =>
    intro y hy
    simp only [insertSorted] at hy
    split at hy
    · rcases List.mem_cons.mp hy with rfl | hy
      · exact Or.inr (List.mem_cons_self _ _)
      · rcases ih y hy with h | h
        · exact Or.inl h
        · exact Or.inr (List.mem_cons_of_mem _ h)
    · rcases List.mem_cons.mp hy with rfl | hy
      · exact Or.inl rfl
      · exact Or.inr hy

theorem mem_into_sorted_vec {α : Type} (t : TopSet α) :
    ∀ y ∈ t.into_sorted_vec, y ∈ t.items := by
  suffices h : ∀ (l : List α) (acc : List α) (y : α),
      y ∈ l.foldl (fun acc x => insertSorted t.beats x acc) acc → y ∈ l ∨ y ∈ acc by
    intro y hy
    rcases h t.items [] y hy with hh | hh
    · exact hh
    · simp at hh
  intro l
  induction l with
  | nil =>
    intro acc y hy
    exact Or.inr hy
  | cons x xs ih =>
    intro acc y hy
    rw [List.foldl_cons] at hy
    rcases ih _ y hy with hh | hh
    · exact Or.inl (List.mem_cons_of_mem _ hh)
    · rcases mem_insertSorted t.beats x acc y hh with rfl | hh
      · exact Or.inl (List.mem_cons_self _ _)
      · exact Or.inr hh

theorem mem_topSet_insert {α : Type} [DecidableEq α] (t : TopSet α) (x y : α)
    (hy : y ∈ (t.insert x).items) : y = x ∨ y ∈ t.items := by
  rw [TopSet.insert] at hy
  split at hy
  · rcases List.mem_cons.mp hy with rfl | hy
    · exact Or.inl rfl
    · exact Or.inr hy
  · revert hy
    split
    · exact fun hy => Or.inr hy
    · split
      · intro hy
        rcases List.mem_cons.mp hy with rfl | hy
        · exact Or.inl rfl
        · exact Or.inr (List.mem_of_mem_erase hy)
      · exact fun hy => Or.inr hy

theorem mem_topSet_foldl_insert {α : Type} [DecidableEq α] :
    ∀ (l : List α) (t : TopSet α) (y : α),
      y ∈ (l.foldl TopSet.insert t).items → y ∈ l ∨ y ∈ t.items := by
  intro l
  induction l with
  | nil => exact fun t y hy => Or.inr hy
  | cons x xs ih =>
    intro t y hy
    rw [List.foldl_cons] at hy
    rcases ih _ y hy with hh | hh
    · exact Or.inl (List.mem_cons_of_mem _ hh)
    · rcases mem_topSet_insert t x y hh with rfl | hh
      · exact Or.inl (List.mem_cons_self _ _)
      · exact Or.inr hh

theorem mem_dfsUpdateTop (p : Int) (item : SearchQueueItem)
    (top : TopSet (Int × SearchQueueItem)) (pi : Int × SearchQueueItem)
    (hpi : pi ∈ (dfsUpdateTop p item top).items) :
    pi = (p, item) ∨ pi ∈ top.items := by
  rw [dfsUpdateTop] at hpi
  revert hpi
  split
  · split
    · exact fun hpi => Or.inr hpi
    · split
      · intro hpi
        rcases mem_topSet_insert _ _ _ hpi with rfl | hh
        · exact Or.inl rfl
        · rcases mem_topSet_foldl_insert _ _ _ hh with hh2 | hh2
          · exact Or.inr (List.mem_filter.mp hh2).1
          · simp [TopSet.mkNew] at hh2
      · intro hpi
        rcases mem_topSet_foldl_insert _ _ _ hpi with hh2 | hh2
        · exact Or.inr (List.mem_filter.mp hh2).1
        · simp [TopSet.mkNew] at hh2
  · split
    · intro hpi
      rcases mem_topSet_insert _ _ _ hpi with rfl | hh
      · exact Or.inl rfl
      · exact Or.inr hh
    · exact fun hpi => Or.inr hpi

theorem dfsLoop_reaches (rules : MixtureRules) (initial : SearchQueueItem)
    (num_mixins : Nat) (markup : ℚ) (max_price : Int) :
    ∀ (fuel : Nat) (stack : List SearchQueueItem) (top : TopSet (Int × SearchQueueItem))
      (res : List (Int × SearchQueueItem)),
      (∀ i ∈ stack, Reaches rules initial i) →
      (∀ pi ∈ top.items, Reaches rules initial pi.2) →
      dfsLoop rules num_mixins markup max_price fuel stack top = some res →
      ∀ pi ∈ res, Reaches rules initial pi.2 := by
  intro fuel
  induction fuel with
  | zero =>
    intro stack top res _ _ h
    exact absurd h (by rw [dfsLoop]; simp)
  | succ fuel ih =>
    intro stack top res hstack htop hrun
    match stack with
    | [] =>
      have hres : res = top.into_sorted_vec := by
        rw [dfsLoop] at hrun
        exact (Option.some.injEq _ _ ▸ hrun).symm
      subst hres
      exact fun pi hpi => htop pi (mem_into_sorted_vec top pi hpi)
    | item :: stack =>
      rw [dfsLoop] at hrun
      simp only at hrun
      have hitem : Reaches rules initial item := hstack item (List.mem_cons_self _ _)
      have hstack2 : ∀ i ∈ stack, Reaches rules initial i :=
        fun i hi => hstack i (List.mem_cons_of_mem _ hi)
      have htop2 : ∀ pi ∈ (dfsUpdateTop
          (profit (base_price item.drug * (1 + markup)) item.substances item.effects
            rules max_price) item top).items, Reaches rules initial pi.2 := by
        intro pi hpi
        rcases mem_dfsUpdateTop _ _ _ _ hpi with rfl | hh
        · exact hitem
        · exact htop pi hh
      split at hrun
      · exact fun pi hpi => ih stack _ res hstack2 htop2 hrun pi hpi
      · split at hrun
        · exact absurd hrun (by simp)
        · refine fun pi hpi => ih _ _ res ?_ htop2 hrun pi hpi
          intro i hi
          rcases List.mem_append.mp hi with hi | hi
          · rw [List.mem_reverse] at hi
            obtain ⟨s, -, hs⟩ := List.mem_filterMap.mp hi
            obtain ⟨eff, heff, hmap⟩ := Option.map_eq_some'.mp hs
            subst hmap
            exact Reaches.step hitem heff
          · exact hstack2 i hi

/-- Claim C10: apply_substance returns None exactly when the application is a
no-op, Some of the new set otherwise; and every (profit, item) pair reported
by depth_first_search is reachable from the initial item by substance
applications none of which is a no-op at the point it is applied. -/
theorem c10_apply_substance_dfs (rules : MixtureRules) :
    (∀ (e : Effects) (s : Substance),
      (apply_substance e s rules = none ↔ rules.apply s e = e) ∧
      (∀ e2, apply_substance e s rules = some e2 → e2 = rules.apply s e ∧ e2 ≠ e)) ∧
    (∀ (fuel : Nat) (initial : SearchQueueItem) (max_results num_mixins : Nat)
        (markup : ℚ) (max_price : Int) (res : List (Int × SearchQueueItem)),
      depth_first_search fuel rules initial max_results num_mixins markup max_price =
        some res →
      ∀ pi ∈ res, Reaches rules initial pi.2) := by
  constructor
  · intro e s
    constructor
    · rw [apply_substance]
      split
      · next h => simp [h]
      · next h => simp [h]
    · intro e2 h2
      rw [apply_substance] at h2
      revert h2
      split
      · intro h2
        exact absurd h2 (by simp)
      · next h =>
        intro h2
        have he2 : e2 = rules.apply s e := by
          have := Option.some.injEq (rules.apply s e) e2 ▸ h2
          simpa using h2.symm
        exact ⟨he2, by rw [he2]; exact h⟩
  · intro fuel initial max_results num_mixins markup max_price res hrun
    rw [depth_first_search] at hrun
    exact dfsLoop_reaches rules initial num_mixins markup max_price fuel [initial] _ res
      (fun i hi => by
        rcases List.mem_cons.mp hi with rfl | hi
        · exact Reaches.refl
        · simp at hi)
      (fun pi hpi => by simp [TopSet.mkNew] at hpi)
      hrun

/-- Concrete application of c10_apply_substance_dfs: on the inert rulesC5
table every application is a no-op, apply_substance prunes them all, and the
depth-first search from the bare Meth item reports exactly that item, reached
with zero (hence no no-op) applications. -/
theorem c10_apply_substance_dfs_witness :
    rulesC5.apply Substance.Cuke 0 = 0 ∧
    apply_substance 0 Substance.Cuke rulesC5 = none ∧
    depth_first_search 3 rulesC5 ⟨Drugs.Meth, [], 0⟩ 1 0 0 999 =
      some [(70, ⟨Drugs.Meth, [], 0⟩)] ∧
    ∀ pi ∈ [((70 : Int), (⟨Drugs.Meth, [], 0⟩ : SearchQueueItem))],
      Reaches rulesC5 ⟨Drugs.Meth, [], 0⟩ pi.2 :=
  ⟨by decide,
   ((c10_apply_substance_dfs rulesC5).1 0 Substance.Cuke).1.mpr (by decide),
   by decide,
   (c10_apply_substance_dfs rulesC5).2 3 ⟨Drugs.Meth, [], 0⟩ 1 0 0 999
     [(70, ⟨Drugs.Meth, [], 0⟩)] (by decide)⟩

/-! ## Claims C2, C6, C7: the combinatorial encoder -/

theorem pascal_eq_choose : ∀ r c, pascal r c = Nat.choose r c := by
  intro r
  induction r with
  | zero =>
    intro c
    cases c with
    | zero => rfl
    | succ c => rfl
  | succ r ih =>
    intro c
    cases c with
    | zero => rfl
    | succ c =>
      show (if c + 1 = r + 1 then 1
        else (if r < c then 0 else pascal r c) + (if r < c + 1 then 0 else pascal r (c + 1))) = _
      by_cases h : c = r
      · subst h
        simp [Nat.choose_self]
      · rw [if_neg (by omega)]
        by_cases hrc : r < c
        · rw [if_pos hrc, if_pos (by omega), Nat.choose_eq_zero_of_lt (by omega)]
        · rw [if_neg hrc, if_neg (by omega), ih, ih]
          exact (Nat.choose_succ_succ r c).symm

theorem sizeOffset_zero (N : Nat) : sizeOffset N 0 = 0 := rfl

theorem sizeOffset_succ (N k : Nat) : sizeOffset N (k + 1) = sizeOffset N k + pascal N k := by
  show (List.range (k + 1)).foldl _ 0 = _
  rw [List.range_succ k, List.foldl_append]
  rfl

theorem sizeOffset_eq_sum (N k : Nat) :
    sizeOffset N k = ∑ j ∈ Finset.range k, Nat.choose N j := by
  induction k with
  | zero => rfl
  | succ k ih => rw [sizeOffset_succ, ih, Finset.sum_range_succ, pascal_eq_choose]

theorem sizeOffset_mono (N : Nat) {k1 k2 : Nat} (h : k1 ≤ k2) :
    sizeOffset N k1 ≤ sizeOffset N k2 := by
  induction k2 with
  | zero =>
    have : k1 = 0 := by omega
    subst this
    exact le_refl _
  | succ k2 ih =>
    by_cases hk : k1 = k2 + 1
    · subst hk
      exact le_refl _
    · have h2 := ih (by omega)
      rw [sizeOffset_succ]
      omega

theorem sizeOffset_lt_succ (N k : Nat) (hk : k ≤ N) :
    sizeOffset N k < sizeOffset N (k + 1) := by
  rw [sizeOffset_succ, pascal_eq_choose]
  have := Nat.choose_pos hk
  omega

/-- The padding-free list of set bit positions of a mask, in increasing order,
obtained by the same lowest-set-bit peeling as the encode loop (recursion
worker with structural fuel). -/
def bitsAsc_go : Nat → Nat → List Nat
  | 0, _ => []
  | fuel + 1, n =>
    if n = 0 then [] else trailingZeros n :: bitsAsc_go fuel (n - 2 ^ trailingZeros n)

/-- The list of set bit positions of a mask, in increasing order. -/
def bitsAsc (n : Nat) : List Nat := bitsAsc_go n n

theorem bitsAsc_go_stable : ∀ n f1 f2, n ≤ f1 → n ≤ f2 →
    bitsAsc_go f1 n = bitsAsc_go f2 n := by
  intro n
  induction n using Nat.strong_induction_on with
  | _ n ih =>
    intro f1 f2 h1 h2
    match n, f1, f2 with
    | 0, f1, f2 => cases f1 <;> cases f2 <;> simp [bitsAsc_go]
    | n + 1, f1 + 1, f2 + 1 =>
      simp only [bitsAsc_go, Nat.succ_ne_zero, if_false]
      have hd : n + 1 - 2 ^ trailingZeros (n + 1) < n + 1 :=
        Nat.sub_lt (Nat.succ_pos n) (Nat.pos_pow_of_pos _ (by norm_num))
      exact congrArg _ (ih _ hd f1 f2 (by omega) (by omega))

/-- The defining recursion of bitsAsc. -/
theorem bitsAsc_eq (n : Nat) :
    bitsAsc n = if n = 0 then [] else
      trailingZeros n :: bitsAsc (n - 2 ^ trailingZeros n) := by
  match n with
  | 0 => rfl
  | n + 1 =>
    show bitsAsc_go (n + 1) (n + 1) = _
    simp only [bitsAsc_go, Nat.succ_ne_zero, if_false, bitsAsc]
    have hd : n + 1 - 2 ^ trailingZeros (n + 1) < n + 1 :=
      Nat.sub_lt (Nat.succ_pos n) (Nat.pos_pow_of_pos _ (by norm_num))
    exact congrArg _ (bitsAsc_go_stable _ _ _ (by omega) (le_refl _))

theorem trailingZeros_spec : ∀ n, n ≠ 0 →
    2 ^ trailingZeros n ∣ n ∧ (n / 2 ^ trailingZeros n) % 2 = 1 := by
  intro n
  induction n using Nat.strong_induction_on with
  | _ n ih =>
    intro hn
    rw [trailingZeros_eq]
    by_cases ho : n % 2 = 1 ∨ n = 0
    · have hm : n % 2 = 1 := by omega
      rw [if_pos ho]
      simpa using hm
    · rw [if_neg ho]
      have heven : n % 2 = 0 := by omega
      have hhalf : n / 2 ≠ 0 := by omega
      obtain ⟨hdvd, hodd⟩ := ih (n / 2) (by omega) hhalf
      constructor
      · obtain ⟨m, hm⟩ := hdvd
        refine ⟨m, ?_⟩
        calc n = 2 * (n / 2) := by omega
        _ = 2 * (2 ^ trailingZeros (n / 2) * m) := by conv_lhs => rw [hm]
        _ = 2 ^ (trailingZeros (n / 2) + 1) * m := by rw [pow_succ]; ring
      · rw [pow_succ, mul_comm, ← Nat.div_div_eq_div_mul]
        exact hodd

theorem two_pow_tz_le (n : Nat) (hn : n ≠ 0) : 2 ^ trailingZeros n ≤ n :=
  Nat.le_of_dvd (Nat.pos_of_ne_zero hn) (trailingZeros_spec n hn).1

theorem div_pow_even_of_dvd {n j : Nat} (h : 2 ^ (j + 1) ∣ n) : (n / 2 ^ j) % 2 = 0 := by
  obtain ⟨m, hm⟩ := h
  subst hm
  have h1 : 2 ^ (j + 1) * m = 2 ^ j * (2 * m) := by
    rw [pow_succ]
    ring
  rw [h1, Nat.mul_div_cancel_left _ (Nat.pos_pow_of_pos j (by norm_num))]
  omega

theorem tz_eq_of {n k : Nat} (hn : n ≠ 0) (hdvd : 2 ^ k ∣ n)
    (hodd : (n / 2 ^ k) % 2 = 1) : trailingZeros n = k := by
  obtain ⟨hd, ho⟩ := trailingZeros_spec n hn
  rcases Nat.lt_trichotomy (trailingZeros n) k with h | h | h
  · exfalso
    have : 2 ^ (trailingZeros n + 1) ∣ n := dvd_trans (pow_dvd_pow 2 (by omega)) hdvd
    have := div_pow_even_of_dvd this
    omega
  · exact h
  · exfalso
    have : 2 ^ (k + 1) ∣ n := dvd_trans (pow_dvd_pow 2 (by omega)) hd
    have := div_pow_even_of_dvd this
    omega

theorem two_pow_succ_dvd_of {t x : Nat} (h1 : 2 ^ t ∣ x) (h2 : (x / 2 ^ t) % 2 = 0) :
    2 ^ (t + 1) ∣ x := by
  obtain ⟨w, hw⟩ := h1
  subst hw
  rw [Nat.mul_div_cancel_left _ (Nat.pos_pow_of_pos t (by norm_num))] at h2
  refine ⟨w / 2, ?_⟩
  have hw2 : w = 2 * (w / 2) := by omega
  calc 2 ^ t * w = 2 ^ t * (2 * (w / 2)) := by conv_lhs => rw [hw2]
  _ = 2 ^ (t + 1) * (w / 2) := by rw [pow_succ]; ring

theorem bitsAsc_lower : ∀ n k, 2 ^ k ∣ n → ∀ x ∈ bitsAsc n, k ≤ x := by
  intro n
  induction n using Nat.strong_induction_on with
  | _ n ih =>
    intro k hdvd x hx
    rw [bitsAsc_eq] at hx
    by_cases hn : n = 0
    · simp [hn] at hx
    · rw [if_neg hn] at hx
      obtain ⟨hd, ho⟩ := trailingZeros_spec n hn
      have hke : k ≤ trailingZeros n := by
        by_contra hk
        have hdvd2 : 2 ^ (trailingZeros n + 1) ∣ n :=
          dvd_trans (pow_dvd_pow 2 (by omega)) hdvd
        have := div_pow_even_of_dvd hdvd2
        omega
      rcases List.mem_cons.mp hx with rfl | hx
      · exact hke
      · have hk2 : 2 ^ k ∣ n - 2 ^ trailingZeros n :=
          Nat.dvd_sub' hdvd (dvd_trans (pow_dvd_pow 2 hke) dvd_rfl)
        have hlt : n - 2 ^ trailingZeros n < n :=
          Nat.sub_lt (Nat.pos_of_ne_zero hn) (Nat.pos_pow_of_pos _ (by norm_num))
        exact ih _ hlt k hk2 x hx

theorem bitsAsc_tail_gt (n : Nat) (hn : n ≠ 0) :
    ∀ x ∈ bitsAsc (n - 2 ^ trailingZeros n), trailingZeros n < x := by
  intro x hx
  obtain ⟨hd, ho⟩ := trailingZeros_spec n hn
  set t := trailingZeros n with ht
  have hdvd1 : 2 ^ t ∣ n - 2 ^ t := Nat.dvd_sub' hd dvd_rfl
  have h2le : 2 ^ t ≤ n := two_pow_tz_le n hn
  have hpos : (0 : Nat) < 2 ^ t := Nat.pos_pow_of_pos t (by norm_num)
  have heven : ((n - 2 ^ t) / 2 ^ t) % 2 = 0 := by
    obtain ⟨u, hu⟩ := hd
    have hup : 1 ≤ u := by
      rcases Nat.eq_zero_or_pos u with h0 | h0
      · exfalso
        apply hn
        rw [hu, h0, Nat.mul_zero]
      · exact h0
    have hu1 : n - 2 ^ t = 2 ^ t * (u - 1) := by
      rw [hu]
      have := Nat.mul_pred (2 ^ t) u
      have hpred : u - 1 = u.pred := rfl
      rw [hpred, this]
    rw [hu1, Nat.mul_div_cancel_left _ hpos]
    have hodd_u : u % 2 = 1 := by
      rw [hu, Nat.mul_div_cancel_left _ hpos] at ho
      exact ho
    omega
  have hdvd2 : 2 ^ (t + 1) ∣ n - 2 ^ t := two_pow_succ_dvd_of hdvd1 heven
  have := bitsAsc_lower _ _ hdvd2 x hx
  omega

theorem bitsAsc_pairwise : ∀ n, List.Pairwise (· < ·) (bitsAsc n) := by
  intro n
  induction n using Nat.strong_induction_on with
  | _ n ih =>
    rw [bitsAsc_eq]
    by_cases hn : n = 0
    · simp [hn]
    · rw [if_neg hn]
      have hlt : n - 2 ^ trailingZeros n < n :=
        Nat.sub_lt (Nat.pos_of_ne_zero hn) (Nat.pos_pow_of_pos _ (by norm_num))
      exact List.pairwise_cons.mpr ⟨bitsAsc_tail_gt n hn, ih _ hlt⟩

theorem bitsAsc_two_pow_le : ∀ n, ∀ x ∈ bitsAsc n, 2 ^ x ≤ n := by
  intro n
  induction n using Nat.strong_induction_on with
  | _ n ih =>
    intro x hx
    rw [bitsAsc_eq] at hx
    by_cases hn : n = 0
    · simp [hn] at hx
    · rw [if_neg hn] at hx
      rcases List.mem_cons.mp hx with rfl | hx
      · exact two_pow_tz_le n hn
      · have hlt : n - 2 ^ trailingZeros n < n :=
          Nat.sub_lt (Nat.pos_of_ne_zero hn) (Nat.pos_pow_of_pos _ (by norm_num))
        exact le_trans (ih _ hlt x hx) (Nat.sub_le _ _)

theorem count_ones_zero : count_ones 0 = 0 := rfl

theorem count_ones_two_mul (x : Nat) : count_ones (2 * x) = count_ones x := by
  rw [count_ones_eq (2 * x)]
  by_cases hx : x = 0
  · subst hx
    decide
  · rw [if_neg (by omega)]
    have h1 : 2 * x % 2 = 0 := by omega
    have h2 : 2 * x / 2 = x := by omega
    rw [h1, h2]
    omega

theorem count_peel : ∀ n, n ≠ 0 →
    count_ones n = count_ones (n - 2 ^ trailingZeros n) + 1 := by
  intro n
  induction n using Nat.strong_induction_on with
  | _ n ih =>
    intro hn
    rw [trailingZeros_eq]
    by_cases ho : n % 2 = 1 ∨ n = 0
    · have hm : n % 2 = 1 := by omega
      rw [if_pos ho]
      rw [count_ones_eq n, if_neg hn, hm]
      rw [count_ones_eq (n - 2 ^ 0)]
      by_cases h1 : n = 1
      · subst h1
        decide
      · rw [if_neg (by omega)]
        have e1 : (n - 2 ^ 0) % 2 = 0 := by simp; omega
        have e2 : (n - 2 ^ 0) / 2 = n / 2 := by simp; omega
        rw [e1, e2]
        omega
    · rw [if_neg ho]
      have heven : n % 2 = 0 := by omega
      have hhalf : n / 2 ≠ 0 := by omega
      have hh2 : n = 2 * (n / 2) := by omega
      have hsub : n - 2 ^ (trailingZeros (n / 2) + 1) =
          2 * (n / 2 - 2 ^ trailingZeros (n / 2)) := by
        rw [pow_succ]
        omega
      rw [hsub, count_ones_two_mul]
      have hcn : count_ones n = count_ones (n / 2) := by
        conv_lhs => rw [hh2]
        exact count_ones_two_mul (n / 2)
      rw [hcn]
      exact ih (n / 2) (by omega) hhalf

theorem bitsAsc_length : ∀ n, (bitsAsc n).length = count_ones n := by
  intro n
  induction n using Nat.strong_induction_on with
  | _ n ih =>
    rw [bitsAsc_eq]
    by_cases hn : n = 0
    · subst hn
      simp [count_ones_zero]
    · rw [if_neg hn]
      have hlt : n - 2 ^ trailingZeros n < n :=
        Nat.sub_lt (Nat.pos_of_ne_zero hn) (Nat.pos_pow_of_pos _ (by norm_num))
      rw [List.length_cons, ih _ hlt, count_peel n hn]

/-- The mask with exactly the given bit positions set. -/
def ofBits : List Nat → Nat
  | [] => 0
  | a :: l => 2 ^ a + ofBits l

theorem ofBits_bitsAsc : ∀ n, ofBits (bitsAsc n) = n := by
  intro n
  induction n using Nat.strong_induction_on with
  | _ n ih =>
    rw [bitsAsc_eq]
    by_cases hn : n = 0
    · simp [hn, ofBits]
    · rw [if_neg hn]
      have hlt : n - 2 ^ trailingZeros n < n :=
        Nat.sub_lt (Nat.pos_of_ne_zero hn) (Nat.pos_pow_of_pos _ (by norm_num))
      rw [ofBits, ih _ hlt]
      have := two_pow_tz_le n hn
      omega

theorem ofBits_append (l : List Nat) (a : Nat) : ofBits (l ++ [a]) = ofBits l + 2 ^ a := by
  induction l with
  | nil => simp [ofBits]
  | cons b l ih =>
    rw [List.cons_append, ofBits, ofBits, ih]
    omega

theorem ofBits_lt_pow : ∀ (l : List Nat) (e : Nat), List.Pairwise (· < ·) l →
    (∀ x ∈ l, x < e) → ofBits l < 2 ^ e := by
  intro l
  induction l using List.reverseRecOn with
  | nil =>
    intro e _ _
    exact Nat.pos_pow_of_pos e (by norm_num)
  | append_singleton l b ih =>
    intro e hpw hbound
    obtain ⟨hpl, -, hlb⟩ := List.pairwise_append.mp hpw
    have hb : b < e := hbound b (List.mem_append_right _ (List.mem_singleton_self b))
    have hofb : ofBits l < 2 ^ b :=
      ih b hpl (fun x hx => hlb x hx b (List.mem_singleton_self b))
    rw [ofBits_append]
    calc ofBits l + 2 ^ b < 2 ^ b + 2 ^ b := by omega
    _ = 2 ^ (b + 1) := by rw [pow_succ]; omega
    _ ≤ 2 ^ e := Nat.pow_le_pow_right (by norm_num) (by omega)

theorem lor_two_pow_add {x e : Nat} (h : x < 2 ^ e) : 2 ^ e ||| x = 2 ^ e + x := by
  apply Nat.eq_of_testBit_eq
  intro i
  rw [Nat.testBit_lor]
  rcases Nat.lt_trichotomy i e with hie | heq | hie
  · rw [Nat.testBit_two_pow_add_gt hie]
    have h2 : (2 ^ e).testBit i = false := by
      rw [Nat.testBit_two_pow]
      simp
      omega
    rw [h2, Bool.false_or]
  · subst heq
    rw [Nat.testBit_two_pow_add_eq, Nat.testBit_lt_two_pow h]
    have h2 : (2 ^ i).testBit i = true := by
      rw [Nat.testBit_two_pow]
      simp
    rw [h2]
    rfl
  · have hlt1 : 2 ^ e + x < 2 ^ i := by
      calc 2 ^ e + x < 2 ^ e + 2 ^ e := by omega
      _ = 2 ^ (e + 1) := by rw [pow_succ]; omega
      _ ≤ 2 ^ i := Nat.pow_le_pow_right (by norm_num) (by omega)
    rw [Nat.testBit_lt_two_pow hlt1]
    have h2 : (2 ^ e).testBit i = false := by
      rw [Nat.testBit_two_pow]
      simp
      omega
    have h3 : x.testBit i = false :=
      Nat.testBit_lt_two_pow (by
        calc x < 2 ^ e := h
        _ ≤ 2 ^ i := Nat.pow_le_pow_right (by norm_num) (by omega))
    rw [h2, h3]
    rfl

theorem bitsAsc_add_two_pow : ∀ (x e : Nat), x < 2 ^ e →
    bitsAsc (x + 2 ^ e) = bitsAsc x ++ [e] := by
  intro x
  induction x using Nat.strong_induction_on with
  | _ x ih =>
    intro e hx
    by_cases hx0 : x = 0
    · subst hx0
      rw [zero_add]
      have hn : (2 : Nat) ^ e ≠ 0 := by positivity
      have htz : trailingZeros (2 ^ e) = e :=
        tz_eq_of hn dvd_rfl (by
          rw [Nat.div_self (Nat.pos_pow_of_pos e (by norm_num))])
      rw [bitsAsc_eq, if_neg hn, htz, Nat.sub_self, bitsAsc_eq]
      simp [bitsAsc_eq]
    · obtain ⟨hdx, hox⟩ := trailingZeros_spec x hx0
      have htle : 2 ^ trailingZeros x ≤ x := two_pow_tz_le x hx0
      have hte : trailingZeros x < e := by
        by_contra hc
        have : (2 : Nat) ^ e ≤ 2 ^ trailingZeros x :=
          Nat.pow_le_pow_right (by norm_num) (by omega)
        omega
      have hn : x + 2 ^ e ≠ 0 := by positivity
      have htz : trailingZeros (x + 2 ^ e) = trailingZeros x := by
        apply tz_eq_of hn
        · exact Nat.dvd_add hdx (pow_dvd_pow 2 (by omega))
        · have hsplit : 2 ^ e = 2 ^ trailingZeros x * 2 ^ (e - trailingZeros x) := by
            rw [← pow_add]
            congr 1
            omega
          rw [hsplit, Nat.add_mul_div_left _ _ (Nat.pos_pow_of_pos _ (by norm_num))]
          have heven : 2 ^ (e - trailingZeros x) % 2 = 0 := by
            have h1 : e - trailingZeros x = (e - trailingZeros x - 1) + 1 := by omega
            rw [h1, pow_succ]
            omega
          omega
      rw [bitsAsc_eq, if_neg hn, htz]
      have hstep : x + 2 ^ e - 2 ^ trailingZeros x = (x - 2 ^ trailingZeros x) + 2 ^ e := by
        omega
      rw [hstep, ih (x - 2 ^ trailingZeros x) (by omega) e (by omega)]
      conv_rhs => rw [bitsAsc_eq, if_neg hx0]
      rw [List.cons_append]

theorem bitsAsc_ofBits : ∀ (l : List Nat), List.Pairwise (· < ·) l →
    bitsAsc (ofBits l) = l := by
  intro l
  induction l using List.reverseRecOn with
  | nil => intro _; rfl
  | append_singleton l a ih =>
    intro hpw
    obtain ⟨hpl, -, hla⟩ := List.pairwise_append.mp hpw
    have hofb : ofBits l < 2 ^ a :=
      ofBits_lt_pow l a hpl (fun x hx => hla x hx a (List.mem_singleton_self a))
    rw [ofBits_append, bitsAsc_add_two_pow _ _ hofb, ih hpl]

/-! ## The encode loop as a combinatorial-number-system sum -/

/-- The combinatorial-number-system sum: for a list of bit positions and a
starting counter, add the guarded table value at (position, counter) and step
the counter, exactly the summand shape of the encode loop. -/
def cnsChoose : List Nat → Nat → Nat
  | [], _ => 0
  | a :: l, t => (if a < t then 0 else Nat.choose a t) + cnsChoose l (t + 1)

theorem cnsChoose_cons (a : Nat) (l : List Nat) (t : Nat) :
    cnsChoose (a :: l) t = Nat.choose a t + cnsChoose l (t + 1) := by
  show (if a < t then 0 else Nat.choose a t) + _ = _
  by_cases h : a < t
  · rw [if_pos h, Nat.choose_eq_zero_of_lt h]
  · rw [if_neg h]

theorem cnsChoose_append (l : List Nat) (b t : Nat) :
    cnsChoose (l ++ [b]) t = cnsChoose l t + Nat.choose b (t + l.length) := by
  induction l generalizing t with
  | nil =>
    rw [List.nil_append, cnsChoose_cons]
    show Nat.choose b t + 0 = 0 + Nat.choose b t
    omega
  | cons a l ih =>
    rw [List.cons_append, cnsChoose_cons, cnsChoose_cons, ih]
    have h : t + 1 + l.length = t + (a :: l).length := by
      simp only [List.length_cons]
      omega
    rw [h]
    omega

theorem encodeLoop_cns : ∀ n t, encodeLoop n t = cnsChoose (bitsAsc n) t := by
  intro n
  induction n using Nat.strong_induction_on with
  | _ n ih =>
    intro t
    rw [encodeLoop_eq, bitsAsc_eq]
    by_cases hn : n = 0
    · simp [hn, cnsChoose]
    · rw [if_neg hn, if_neg hn]
      have hlt : n - 2 ^ trailingZeros n < n :=
        Nat.sub_lt (Nat.pos_of_ne_zero hn) (Nat.pos_pow_of_pos _ (by norm_num))
      simp only [cnsChoose]
      rw [pascal_eq_choose, ih _ hlt]

theorem pairwise_lt_length_le : ∀ (l : List Nat) (b : Nat), List.Pairwise (· < ·) l →
    (∀ x ∈ l, x < b) → l.length ≤ b := by
  intro l
  induction l using List.reverseRecOn with
  | nil =>
    intro b _ _
    exact Nat.zero_le b
  | append_singleton l a ih =>
    intro b hpw hb
    obtain ⟨hpl, -, hla⟩ := List.pairwise_append.mp hpw
    have h1 : l.length ≤ a := ih a hpl (fun x hx => hla x hx a (List.mem_singleton_self a))
    have h2 : a < b := hb a (List.mem_append_right l (List.mem_singleton_self a))
    simp only [List.length_append, List.length_cons, List.length_nil]
    omega

theorem cns_upper : ∀ (l : List Nat) (e : Nat), List.Pairwise (· < ·) l →
    (∀ x ∈ l, x < e) → cnsChoose l 1 < Nat.choose e l.length := by
  intro l
  induction l using List.reverseRecOn with
  | nil =>
    intro e _ _
    show 0 < Nat.choose e 0
    rw [Nat.choose_zero_right]
    omega
  | append_singleton l b ih =>
    intro e hpw hbound
    obtain ⟨hpl, -, hlb⟩ := List.pairwise_append.mp hpw
    have hb : b < e := hbound b (List.mem_append_right l (List.mem_singleton_self b))
    have hfb : ∀ x ∈ l, x < b := fun x hx => hlb x hx b (List.mem_singleton_self b)
    have hih : cnsChoose l 1 < Nat.choose b l.length := ih b hpl hfb
    rw [cnsChoose_append]
    have hlen : (l ++ [b]).length = l.length + 1 := by
      simp only [List.length_append, List.length_cons, List.length_nil]
    rw [hlen]
    have hpascal : Nat.choose b l.length + Nat.choose b (l.length + 1) =
        Nat.choose (b + 1) (l.length + 1) := (Nat.choose_succ_succ b l.length).symm
    have hmono : Nat.choose (b + 1) (l.length + 1) ≤ Nat.choose e (l.length + 1) :=
      Nat.choose_le_choose _ (by omega)
    have h1 : 1 + l.length = l.length + 1 := by omega
    rw [h1]
    omega

/-- Within equal popcounts, the combinatorial-number-system sum is strictly
increasing in the numeric value of the mask (equivalently, in the
colexicographic order of the ascending bit lists). -/
theorem cns_lt_of_lt : ∀ b a : Nat, a < b → count_ones a = count_ones b →
    cnsChoose (bitsAsc a) 1 < cnsChoose (bitsAsc b) 1 := by
  intro b
  induction b using Nat.strong_induction_on with
  | _ b ih =>
    intro a hab hcount
    have hb0 : b ≠ 0 := by omega
    have ha0 : a ≠ 0 := by
      intro h
      subst h
      rw [count_ones_zero] at hcount
      have := count_peel b hb0
      omega
    rcases List.eq_nil_or_concat (bitsAsc a) with hnil | ⟨fa, ta, hfa⟩
    · exfalso
      have h1 := bitsAsc_length a
      rw [hnil] at h1
      simp only [List.length_nil] at h1
      have h2 := count_peel a ha0
      omega
    rcases List.eq_nil_or_concat (bitsAsc b) with hnilb | ⟨fb, tb, hfb⟩
    · exfalso
      have h1 := bitsAsc_length b
      rw [hnilb] at h1
      simp only [List.length_nil] at h1
      have h2 := count_peel b hb0
      omega
    rw [List.concat_eq_append] at hfa hfb
    have hpa := bitsAsc_pairwise a
    have hpb := bitsAsc_pairwise b
    rw [hfa] at hpa
    rw [hfb] at hpb
    obtain ⟨hpfa, -, hfalt⟩ := List.pairwise_append.mp hpa
    obtain ⟨hpfb, -, hfblt⟩ := List.pairwise_append.mp hpb
    have hfa_lt : ∀ x ∈ fa, x < ta := fun x hx => hfalt x hx ta (List.mem_singleton_self ta)
    have hfb_lt : ∀ x ∈ fb, x < tb := fun x hx => hfblt x hx tb (List.mem_singleton_self tb)
    have hofa : ofBits fa + 2 ^ ta = a := by
      have h := ofBits_bitsAsc a
      rw [hfa, ofBits_append] at h
      exact h
    have hofb : ofBits fb + 2 ^ tb = b := by
      have h := ofBits_bitsAsc b
      rw [hfb, ofBits_append] at h
      exact h
    have hofalt : ofBits fa < 2 ^ ta := ofBits_lt_pow fa ta hpfa hfa_lt
    have hofblt : ofBits fb < 2 ^ tb := ofBits_lt_pow fb tb hpfb hfb_lt
    have hlen : fa.length = fb.length := by
      have h1 : (bitsAsc a).length = (bitsAsc b).length := by
        rw [bitsAsc_length, bitsAsc_length, hcount]
      rw [hfa, hfb] at h1
      simp only [List.length_append, List.length_cons, List.length_nil] at h1
      omega
    rcases Nat.lt_trichotomy ta tb with htt | htt | htt
    · have hall : ∀ x ∈ bitsAsc a, x < tb := by
        intro x hx
        rw [hfa] at hx
        rcases List.mem_append.mp hx with hx | hx
        · exact lt_trans (hfa_lt x hx) htt
        · rw [List.mem_singleton] at hx
          omega
      have hup : cnsChoose (bitsAsc a) 1 < Nat.choose tb (bitsAsc a).length :=
        cns_upper _ tb (bitsAsc_pairwise a) hall
      have hlow : Nat.choose tb (fb.length + 1) ≤ cnsChoose (bitsAsc b) 1 := by
        rw [hfb, cnsChoose_append]
        have h1 : 1 + fb.length = fb.length + 1 := by omega
        rw [h1]
        omega
      have hlena : (bitsAsc a).length = fb.length + 1 := by
        rw [hfa]
        simp only [List.length_append, List.length_cons, List.length_nil]
        omega
      rw [hlena] at hup
      omega
    · have hrest : ofBits fa < ofBits fb := by
        have h2 : (2:Nat) ^ ta = 2 ^ tb := by rw [htt]
        omega
      have hfb0lt : ofBits fb < b := by
        have hp : (0:Nat) < 2 ^ tb := Nat.pos_pow_of_pos tb (by norm_num)
        omega
      have hcnt : count_ones (ofBits fa) = count_ones (ofBits fb) := by
        have h1 : bitsAsc (ofBits fa) = fa := bitsAsc_ofBits fa hpfa
        have h2 : bitsAsc (ofBits fb) = fb := bitsAsc_ofBits fb hpfb
        rw [← bitsAsc_length, ← bitsAsc_length, h1, h2, hlen]
      have hih := ih (ofBits fb) hfb0lt (ofBits fa) hrest hcnt
      rw [bitsAsc_ofBits fa hpfa, bitsAsc_ofBits fb hpfb] at hih
      rw [hfa, hfb, cnsChoose_append, cnsChoose_append, hlen, htt]
      omega
    · exfalso
      have h1 : b < 2 ^ (tb + 1) := by
        have h2 : (2:Nat) ^ (tb + 1) = 2 ^ tb + 2 ^ tb := by
          rw [pow_succ]
          omega
        omega
      have h2 : (2:Nat) ^ (tb + 1) ≤ 2 ^ ta := Nat.pow_le_pow_right (by norm_num) (by omega)
      have h3 : 2 ^ ta ≤ a := by omega
      omega

/-! ## Range and order of encode -/

theorem bitsAsc_lt_of_lt_pow {N a : Nat} (ha : a < 2 ^ N) : ∀ x ∈ bitsAsc a, x < N := by
  intro x hx
  have h1 := bitsAsc_two_pow_le a x hx
  by_contra hc
  have h2 : (2:Nat) ^ N ≤ 2 ^ x := Nat.pow_le_pow_right (by norm_num) (by omega)
  omega

theorem encode_eq_cns (N a : Nat) :
    encode N a = sizeOffset N (count_ones a) + cnsChoose (bitsAsc a) 1 := by
  show sizeOffset N (count_ones a) + encodeLoop a 1 = _
  rw [encodeLoop_cns]

theorem encode_lt_sizeOffset_succ (N a : Nat) (ha : a < 2 ^ N) :
    encode N a < sizeOffset N (count_ones a + 1) := by
  rw [encode_eq_cns, sizeOffset_succ, pascal_eq_choose]
  have h := cns_upper (bitsAsc a) N (bitsAsc_pairwise a) (bitsAsc_lt_of_lt_pow ha)
  rw [bitsAsc_length] at h
  omega

theorem sizeOffset_le_encode (N a : Nat) : sizeOffset N (count_ones a) ≤ encode N a := by
  rw [encode_eq_cns]
  omega

theorem encode_lt_of_count_lt (N a b : Nat) (ha : a < 2 ^ N)
    (hc : count_ones a < count_ones b) : encode N a < encode N b :=
  lt_of_lt_of_le (lt_of_lt_of_le (encode_lt_sizeOffset_succ N a ha)
    (sizeOffset_mono N (by omega))) (sizeOffset_le_encode N b)

theorem encode_lt_of_count_eq (N a b : Nat) (hc : count_ones a = count_ones b)
    (hab : a < b) : encode N a < encode N b := by
  rw [encode_eq_cns, encode_eq_cns, hc]
  have := cns_lt_of_lt b a hab hc
  omega

theorem encode_inj (N a b : Nat) (ha : a < 2 ^ N) (hb : b < 2 ^ N)
    (h : encode N a = encode N b) : a = b := by
  rcases Nat.lt_trichotomy (count_ones a) (count_ones b) with hc | hc | hc
  · have := encode_lt_of_count_lt N a b ha hc
    omega
  · rcases Nat.lt_trichotomy a b with hab | hab | hab
    · have := encode_lt_of_count_eq N a b hc hab
      omega
    · exact hab
    · have := encode_lt_of_count_eq N b a hc.symm hab
      omega
  · have := encode_lt_of_count_lt N b a hb hc
    omega

theorem encode_lt_maximum_index (N MAX_K a : Nat) (ha : a < 2 ^ N)
    (hc : count_ones a ≤ MAX_K) : encode N a < maximum_index N MAX_K :=
  lt_of_lt_of_le (encode_lt_sizeOffset_succ N a ha) (sizeOffset_mono N (by omega))

/-! ## Correctness of decode -/

theorem gpascal_eq (a k : Nat) : (if a < k then 0 else pascal a k) = Nat.choose a k := by
  by_cases h : a < k
  · rw [if_pos h, Nat.choose_eq_zero_of_lt h]
  · rw [if_neg h, pascal_eq_choose]

theorem decodeFind_succ (k idx e : Nat) :
    decodeFind k idx (e + 1) =
      if Nat.choose (e + 1) k ≤ idx then e + 1 else decodeFind k idx e := by
  show (if (if e + 1 < k then 0 else pascal (e + 1) k) ≤ idx then e + 1
        else decodeFind k idx e) = _
  rw [gpascal_eq]

theorem decodeFind_le (k idx : Nat) : ∀ e, decodeFind k idx e ≤ e := by
  intro e
  induction e with
  | zero => exact le_refl 0
  | succ e ih =>
    rw [decodeFind_succ]
    by_cases hc : Nat.choose (e + 1) k ≤ idx
    · rw [if_pos hc]
    · rw [if_neg hc]
      omega

theorem decodeFind_choose_le (k idx : Nat) (hk : 1 ≤ k) :
    ∀ e, Nat.choose (decodeFind k idx e) k ≤ idx := by
  intro e
  induction e with
  | zero =>
    show Nat.choose 0 k ≤ idx
    rw [Nat.choose_eq_zero_of_lt hk]
    omega
  | succ e ih =>
    rw [decodeFind_succ]
    by_cases hc : Nat.choose (e + 1) k ≤ idx
    · rw [if_pos hc]
      exact hc
    · rw [if_neg hc]
      exact ih

theorem decodeFind_gt (k idx : Nat) :
    ∀ e j, decodeFind k idx e < j → j ≤ e → idx < Nat.choose j k := by
  intro e
  induction e with
  | zero =>
    intro j h1 h2
    omega
  | succ e ih =>
    intro j h1 h2
    rw [decodeFind_succ] at h1
    by_cases hc : Nat.choose (e + 1) k ≤ idx
    · rw [if_pos hc] at h1
      omega
    · rw [if_neg hc] at h1
      by_cases hj : j = e + 1
      · subst hj
        omega
      · exact ih j h1 (by omega)

theorem decodeFind_spec (N k idx b : Nat) (hk : 1 ≤ k) (hbN : b ≤ N)
    (hidx : idx < Nat.choose b k) :
    decodeFind k idx N < b ∧ Nat.choose (decodeFind k idx N) k ≤ idx ∧
      idx < Nat.choose (decodeFind k idx N + 1) k := by
  have hle := decodeFind_choose_le k idx hk N
  have hN := decodeFind_le k idx N
  have hlt : decodeFind k idx N < b := by
    by_contra hc
    have : Nat.choose b k ≤ Nat.choose (decodeFind k idx N) k :=
      Nat.choose_le_choose k (by omega)
    omega
  exact ⟨hlt, hle, decodeFind_gt k idx N (decodeFind k idx N + 1) (by omega) (by omega)⟩

theorem decodeLoop_succ (N k idx : Nat) :
    decodeLoop N (k + 1) idx =
      2 ^ decodeFind (k + 1) idx N |||
        decodeLoop N k (idx - Nat.choose (decodeFind (k + 1) idx N) (k + 1)) := by
  show 2 ^ decodeFind (k + 1) idx N |||
      decodeLoop N k (idx - (if decodeFind (k + 1) idx N < k + 1 then 0
        else pascal (decodeFind (k + 1) idx N) (k + 1))) = _
  rw [gpascal_eq]

theorem decodeLoop_spec (N : Nat) : ∀ k idx b, b ≤ N → idx < Nat.choose b k →
    (bitsAsc (decodeLoop N k idx)).length = k ∧
    (∀ x ∈ bitsAsc (decodeLoop N k idx), x < b) ∧
    cnsChoose (bitsAsc (decodeLoop N k idx)) 1 = idx := by
  intro k
  induction k with
  | zero =>
    intro idx b hbN hidx
    rw [Nat.choose_zero_right] at hidx
    have h0 : idx = 0 := by omega
    subst h0
    exact ⟨rfl, fun x hx => absurd hx (List.not_mem_nil x), rfl⟩
  | succ k ih =>
    intro idx b hbN hidx
    obtain ⟨heb, hle, hgt⟩ := decodeFind_spec N (k + 1) idx b (by omega) hbN hidx
    have hpasc : Nat.choose (decodeFind (k + 1) idx N + 1) (k + 1) =
        Nat.choose (decodeFind (k + 1) idx N) k +
          Nat.choose (decodeFind (k + 1) idx N) (k + 1) :=
      Nat.choose_succ_succ (decodeFind (k + 1) idx N) k
    have hidx2 : idx - Nat.choose (decodeFind (k + 1) idx N) (k + 1) <
        Nat.choose (decodeFind (k + 1) idx N) k := by omega
    have heN : decodeFind (k + 1) idx N ≤ N := by omega
    obtain ⟨hlen, hlt, hcns⟩ :=
      ih (idx - Nat.choose (decodeFind (k + 1) idx N) (k + 1)) (decodeFind (k + 1) idx N)
        heN hidx2
    have hmlt : decodeLoop N k (idx - Nat.choose (decodeFind (k + 1) idx N) (k + 1)) <
        2 ^ decodeFind (k + 1) idx N := by
      have h1 := ofBits_lt_pow _ (decodeFind (k + 1) idx N)
        (bitsAsc_pairwise (decodeLoop N k (idx - Nat.choose (decodeFind (k + 1) idx N) (k + 1)))) hlt
      rw [ofBits_bitsAsc] at h1
      exact h1
    have heq : decodeLoop N (k + 1) idx =
        decodeLoop N k (idx - Nat.choose (decodeFind (k + 1) idx N) (k + 1)) +
          2 ^ decodeFind (k + 1) idx N := by
      rw [decodeLoop_succ, lor_two_pow_add hmlt]
      omega
    rw [heq, bitsAsc_add_two_pow _ _ hmlt]
    refine ⟨?_, ?_, ?_⟩
    · simp only [List.length_append, List.length_cons, List.length_nil]
      omega
    · intro x hx
      rcases List.mem_append.mp hx with hx | hx
      · have := hlt x hx
        omega
      · rw [List.mem_singleton] at hx
        omega
    · rw [cnsChoose_append, hcns, hlen]
      have h1 : 1 + k = k + 1 := by omega
      rw [h1]
      omega

theorem countP_range_lt : ∀ (M c : Nat) (p : Nat → Bool), c ≤ M →
    (∀ j, j < M → (p j = true ↔ j < c)) → (List.range M).countP p = c := by
  intro M
  induction M with
  | zero =>
    intro c p hc _
    have h0 : c = 0 := by omega
    subst h0
    rfl
  | succ M ih =>
    intro c p hc hp
    rw [List.range_succ M, List.countP_append]
    have hsing : List.countP p [M] = if p M = true then 1 else 0 := by
      rw [List.countP_cons, List.countP_nil]
      omega
    by_cases hcM : c = M + 1
    · subst hcM
      have h1 : (List.range M).countP p = M :=
        ih M p (le_refl M)
          (fun j hj => ⟨fun _ => hj, fun _ => (hp j (by omega)).mpr (by omega)⟩)
      have h2 : p M = true := (hp M (by omega)).mpr (by omega)
      rw [h1, hsing, if_pos h2]
    · have hcM2 : c ≤ M := by omega
      have h1 : (List.range M).countP p = c := ih c p hcM2 (fun j hj => hp j (by omega))
      have h2 : p M = false := by
        cases hpm : p M
        · rfl
        · have := (hp M (by omega)).mp hpm
          omega
      rw [h1, hsing, h2]
      simp

theorem decode_k_eq (N MAX_K index k : Nat) (hk : k ≤ MAX_K)
    (h1 : sizeOffset N k ≤ index) (h2 : index < sizeOffset N (k + 1)) :
    decode_k N MAX_K index = k := by
  have hcount : (List.range (MAX_K + 2)).countP
      (fun j => decide (sizeOffset N j ≤ index)) = k + 1 := by
    apply countP_range_lt
    · omega
    · intro j hj
      simp only [decide_eq_true_eq]
      constructor
      · intro hle
        by_contra hc
        have h3 : sizeOffset N (k + 1) ≤ sizeOffset N j := sizeOffset_mono N (by omega)
        omega
      · intro hjk
        have h3 : sizeOffset N j ≤ sizeOffset N k := sizeOffset_mono N (by omega)
        omega
  show (List.range (MAX_K + 2)).countP (fun j => decide (sizeOffset N j ≤ index)) - 1 = k
  rw [hcount]
  omega

theorem exists_size_offset_bracket (N : Nat) : ∀ K index, index < sizeOffset N (K + 1) →
    ∃ k, k ≤ K ∧ sizeOffset N k ≤ index ∧ index < sizeOffset N (k + 1) := by
  intro K
  induction K with
  | zero =>
    intro index h
    exact ⟨0, le_refl 0, by rw [sizeOffset_zero]; omega, h⟩
  | succ K ih =>
    intro index h
    by_cases hc : index < sizeOffset N (K + 1)
    · obtain ⟨k, h1, h2, h3⟩ := ih index hc
      exact ⟨k, by omega, h2, h3⟩
    · exact ⟨K + 1, le_refl _, by omega, h⟩

theorem decode_correct (N MAX_K index : Nat)
    (hidx : index < maximum_index N MAX_K) :
    encode N (decode N MAX_K index) = index ∧
      count_ones (decode N MAX_K index) ≤ MAX_K ∧ decode N MAX_K index < 2 ^ N := by
  obtain ⟨k, hkK, h1, h2⟩ := exists_size_offset_bracket N MAX_K index hidx
  have hdk : decode_k N MAX_K index = k := decode_k_eq N MAX_K index k hkK h1 h2
  have hdec : decode N MAX_K index = decodeLoop N k (index - sizeOffset N k) := by
    show decodeLoop N (decode_k N MAX_K index)
        (index - sizeOffset N (decode_k N MAX_K index)) = _
    rw [hdk]
  have hloc : index - sizeOffset N k < Nat.choose N k := by
    rw [sizeOffset_succ, pascal_eq_choose] at h2
    omega
  obtain ⟨hlen, hlt, hcns⟩ := decodeLoop_spec N k (index - sizeOffset N k) N (le_refl N) hloc
  have hcount : count_ones (decodeLoop N k (index - sizeOffset N k)) = k := by
    rw [← bitsAsc_length, hlen]
  have hbound : decodeLoop N k (index - sizeOffset N k) < 2 ^ N := by
    have h3 := ofBits_lt_pow _ N (bitsAsc_pairwise _) hlt
    rw [ofBits_bitsAsc] at h3
    exact h3
  refine ⟨?_, ?_, ?_⟩
  · rw [hdec, encode_eq_cns, hcount, hcns]
    omega
  · rw [hdec, hcount]
    exact hkK
  · rw [hdec]
    exact hbound

theorem encode_correct (N MAX_K mask : Nat) (hm : mask < 2 ^ N)
    (hc : count_ones mask ≤ MAX_K) : decode N MAX_K (encode N mask) = mask := by
  have hrange := encode_lt_maximum_index N MAX_K mask hm hc
  obtain ⟨he, hcnt, hlt⟩ := decode_correct N MAX_K (encode N mask) hrange
  exact encode_inj N _ mask hlt hm he

/-! ## Claims C2, C6 and C7 -/

/-- The concrete value of maximum_index at the production parameters
(N = 34, MAX_K = 8), evaluated through the binomial identities. -/
theorem max_index_34_8_val : maximum_index 34 8 = 25211936 := by
  have p0 : pascal 34 0 = 1 := by
    rw [pascal_eq_choose, Nat.choose_eq_descFactorial_div_factorial]
    decide
  have p1 : pascal 34 1 = 34 := by
    rw [pascal_eq_choose, Nat.choose_eq_descFactorial_div_factorial]
    decide
  have p2 : pascal 34 2 = 561 := by
    rw [pascal_eq_choose, Nat.choose_eq_descFactorial_div_factorial]
    decide
  have p3 : pascal 34 3 = 5984 := by
    rw [pascal_eq_choose, Nat.choose_eq_descFactorial_div_factorial]
    decide
  have p4 : pascal 34 4 = 46376 := by
    rw [pascal_eq_choose, Nat.choose_eq_descFactorial_div_factorial]
    decide
  have p5 : pascal 34 5 = 278256 := by
    rw [pascal_eq_choose, Nat.choose_eq_descFactorial_div_factorial]
    decide
  have p6 : pascal 34 6 = 1344904 := by
    rw [pascal_eq_choose, Nat.choose_eq_descFactorial_div_factorial]
    decide
  have p7 : pascal 34 7 = 5379616 := by
    rw [pascal_eq_choose, Nat.choose_eq_descFactorial_div_factorial]
    decide
  have p8 : pascal 34 8 = 18156204 := by
    rw [pascal_eq_choose, Nat.choose_eq_descFactorial_div_factorial]
    decide
  have s1 : sizeOffset 34 1 = sizeOffset 34 0 + pascal 34 0 := sizeOffset_succ 34 0
  have s2 : sizeOffset 34 2 = sizeOffset 34 1 + pascal 34 1 := sizeOffset_succ 34 1
  have s3 : sizeOffset 34 3 = sizeOffset 34 2 + pascal 34 2 := sizeOffset_succ 34 2
  have s4 : sizeOffset 34 4 = sizeOffset 34 3 + pascal 34 3 := sizeOffset_succ 34 3
  have s5 : sizeOffset 34 5 = sizeOffset 34 4 + pascal 34 4 := sizeOffset_succ 34 4
  have s6 : sizeOffset 34 6 = sizeOffset 34 5 + pascal 34 5 := sizeOffset_succ 34 5
  have s7 : sizeOffset 34 7 = sizeOffset 34 6 + pascal 34 6 := sizeOffset_succ 34 6
  have s8 : sizeOffset 34 8 = sizeOffset 34 7 + pascal 34 7 := sizeOffset_succ 34 7
  have s9 : sizeOffset 34 9 = sizeOffset 34 8 + pascal 34 8 := sizeOffset_succ 34 8
  have s0 : sizeOffset 34 0 = 0 := rfl
  show sizeOffset 34 9 = 25211936
  rw [s9, s8, s7, s6, s5, s4, s3, s2, s1, s0, p0, p1, p2, p3, p4, p5, p6, p7, p8]

/-- C6, counterexample to the concrete value: maximum_index() at
(N = 34, MAX_K = 8) is 25,211,936 (matching the program's own regression
test), not the 25,574,936 the claim asserts. -/
theorem c6_concrete_value_counterexample :
    maximum_index 34 8 = 25211936 ∧ 25211936 ≠ 25574936 :=
  ⟨max_index_34_8_val, by decide⟩

/-- C6, amended: maximum_index() is the sum of the binomial coefficients
C(N, k) for k = 0..MAX_K, and at the concrete parameters (N = 34, MAX_K = 8)
it equals 25,211,936. -/
theorem c6_maximum_index_amended :
    (∀ N K : Nat, maximum_index N K = ∑ k ∈ Finset.range (K + 1), Nat.choose N k) ∧
      maximum_index 34 8 = 25211936 :=
  ⟨fun N K => sizeOffset_eq_sum N (K + 1), max_index_34_8_val⟩

/-- C7, counterexample: the subsets A = {0, 3} (mask 9) and B = {1, 2}
(mask 6) both have size 2 ≤ MAX_K = 8 and the ascending element list of A is
lexicographically smaller than that of B, yet encode orders B strictly before
A: the encoding is colexicographic within a size class, not lexicographic. -/
theorem c7_size_lex_counterexample :
    count_ones 9 = 2 ∧ count_ones 6 = 2 ∧ count_ones 9 ≤ 8 ∧
    bitsAsc 9 = [0, 3] ∧ bitsAsc 6 = [1, 2] ∧
    List.Lex (· < ·) (bitsAsc 9) (bitsAsc 6) ∧
    encode 34 6 < encode 34 9 := by
  refine ⟨by decide, by decide, by decide, by decide, by decide, ?_, by decide⟩
  have h9 : bitsAsc 9 = [0, 3] := by decide
  have h6 : bitsAsc 6 = [1, 2] := by decide
  rw [h9, h6]
  exact List.Lex.rel (by decide)

/-- C7, amended: encode is strictly monotone in the size-then-colex order:
a set with fewer elements encodes strictly below one with more (within the
mask range), and for equal sizes encode is strictly increasing in the numeric
mask order, which on ascending element lists of equal length is exactly the
colexicographic (not lexicographic) order. -/
theorem c7_encode_order_amended (N a b : Nat) :
    (a < 2 ^ N → count_ones a < count_ones b → encode N a < encode N b) ∧
    (count_ones a = count_ones b → a < b → encode N a < encode N b) :=
  ⟨fun ha hc => encode_lt_of_count_lt N a b ha hc,
   fun hc hab => encode_lt_of_count_eq N a b hc hab⟩

theorem c7_encode_order_amended_witness :
    (1 < 2 ^ 4 ∧ count_ones 1 < count_ones 3 ∧ encode 4 1 < encode 4 3) ∧
    (count_ones 3 = count_ones 5 ∧ 3 < 5 ∧ encode 4 3 < encode 4 5) :=
  ⟨⟨by decide, by decide, (c7_encode_order_amended 4 1 3).1 (by decide) (by decide)⟩,
   ⟨by decide, by decide, (c7_encode_order_amended 4 3 5).2 (by decide) (by decide)⟩⟩

/-- C2: the combinatorial encoder is a bijection between the bit masks over N
effects with at most MAX_K bits set and the index range [0, maximum_index):
decode inverts encode on every such mask, and encode inverts decode on every
index in range. -/
theorem c2_encoder_bijection (N MAX_K : Nat) :
    (∀ mask, mask < 2 ^ N → count_ones mask ≤ MAX_K →
      decode N MAX_K (encode N mask) = mask) ∧
    (∀ index, index < maximum_index N MAX_K →
      encode N (decode N MAX_K index) = index) :=
  ⟨fun mask hm hc => encode_correct N MAX_K mask hm hc,
   fun index hidx => (decode_correct N MAX_K index hidx).1⟩

theorem c2_encoder_bijection_witness :
    (5 < 2 ^ 4 ∧ count_ones 5 ≤ 2 ∧ decode 4 2 (encode 4 5) = 5) ∧
    (7 < maximum_index 4 2 ∧ encode 4 (decode 4 2 7) = 7) :=
  ⟨⟨by decide, by decide, (c2_encoder_bijection 4 2).1 5 (by decide) (by decide)⟩,
   ⟨by decide, (c2_encoder_bijection 4 2).2 7 (by decide)⟩⟩
